import Mathlib

/- Verification of the cwalk path library (src/include/cwalk.h).

   Shallow embedding conventions:
   * A C string is a `List Char` that contains no NUL; reading past the end of
     the list models reading the terminating NUL byte (`charAt` returns
     `nulChar` out of range, exactly as `*c` yields a zero byte at the end).
   * Pointers into a string are `Nat` offsets from its start.
   * Caller buffers are a `List Char` whose length is the capacity
     (`buffer_size`); writes past the capacity are dropped, as in the C code.
   * Every C loop is translated as structural recursion on an explicit bound
     (a natural number that dominates the number of remaining iterations);
     the visible wrappers instantiate the bound with a value derived from the
     input lengths, mirroring the fact that the C loops always make progress
     through the input strings. -/

namespace Cwalk

/-- Path styles, mirroring `enum cwk_path_style`. -/
inductive Style where
  | windows
  | unix
deriving DecidableEq, Repr

/-- A C path string: its characters, without the terminating NUL. -/
abbrev Path := List Char

/-- The NUL character used to model the end of a C string. -/
def nulChar : Char := Char.ofNat 0

/-- The separator lists of `separators[]`: `"\\/"` for Windows, `"/"` for
Unix. -/
def separatorList : Style → List Char
  | .windows => ['\\', '/']
  | .unix => ['/']

/-- The canonical output separator: the first character of the style's
separator string (`separators[path_style]` used with length 1). -/
def sepChar (st : Style) : Char := (separatorList st).headD '/'

/-- `is_separator` applied to a character value. -/
def isSepChar (st : Style) (c : Char) : Bool := (separatorList st).contains c

/-- Reading the byte at offset `i`; past the end this is the NUL. -/
def charAt (p : Path) (i : Nat) : Char := p.getD i nulChar

/-- `is_separator` applied to a pointer, i.e. an offset into a path. -/
def isSepAt (st : Style) (p : Path) (i : Nat) : Bool := isSepChar st (charAt p i)

/-- Loop body of `find_next_stop`: advance while the character is neither NUL
nor a separator. -/
def findNextStopGo (st : Style) (p : Path) : Nat → Nat → Nat
  | 0, i => i
  | k + 1, i =>
    if charAt p i ≠ nulChar ∧ ¬ isSepAt st p i then findNextStopGo st p k (i + 1) else i

/-- `find_next_stop`: the offset of the next separator or NUL at or after
`i`. -/
def findNextStop (st : Style) (p : Path) (i : Nat) : Nat :=
  findNextStopGo st p (p.length - i) i

/-- Loop body for a plain `while (is_separator(c)) ++c;` scan. -/
def skipSepsGo (st : Style) (p : Path) : Nat → Nat → Nat
  | 0, i => i
  | k + 1, i => if isSepAt st p i then skipSepsGo st p k (i + 1) else i

/-- Skip a run of separators starting at `i` (stops on NUL, which is not a
separator). -/
def skipSeps (st : Style) (p : Path) (i : Nat) : Nat :=
  skipSepsGo st p (p.length - i) i

/-- `get_root_windows`. Returns the root length. -/
def getRootWindows (p : Path) : Nat :=
  if charAt p 0 = nulChar then 0
  else if isSepAt .windows p 0 then
    if ¬ isSepAt .windows p 1 then 1
    else
      -- Network (UNC) or device path: the cursor is at offset 2 now.  The
      -- device test `(*c == '?' || *c == '.') && is_separator(++c)` advances
      -- the cursor by one exactly when its first operand is true.
      let devFirst := charAt p 2 = '?' ∨ charAt p 2 = '.'
      if devFirst ∧ isSepAt .windows p 3 then 4
      else
        let cServer := if devFirst then 3 else 2
        let cAfterServer := findNextStop .windows p cServer
        let cShare := skipSeps .windows p cAfterServer
        let cAfterShare := findNextStop .windows p cShare
        if isSepAt .windows p cAfterShare then cAfterShare + 1 else cAfterShare
  else if charAt p 1 = ':' then
    if isSepAt .windows p 2 then 3 else 2
  else 0

/-- `get_root_unix`. -/
def getRootUnix (p : Path) : Nat :=
  if isSepAt .unix p 0 then 1 else 0

/-- `get_root` (the root length output parameter). -/
def getRoot (st : Style) (p : Path) : Nat :=
  match st with
  | .windows => getRootWindows p
  | .unix => getRootUnix p

/-- `is_root_absolute`. -/
def isRootAbsolute (st : Style) (p : Path) (length : Nat) : Bool :=
  if length = 0 then false
  else isSepAt st p (length - 1)

/-- `is_absolute`. -/
def isAbsolute (st : Style) (p : Path) : Bool :=
  isRootAbsolute st p (getRoot st p)

/-- `is_relative`. -/
def isRelative (st : Style) (p : Path) : Bool :=
  ! isAbsolute st p

/-- `struct cwk_segment`.  The `path` pointer is passed separately to every
function; `segStart` is the `segments` pointer, `b`/`e` are `begin`/`end`,
all as offsets into the path. -/
structure Seg where
  segStart : Nat
  b : Nat
  e : Nat
  size : Nat
deriving DecidableEq, Repr

/-- `enum cwk_segment_type`. -/
inductive SegType where
  | normal
  | current
  | back
deriving DecidableEq, Repr

/-- `strncmp(a, b, n) == 0`, with the end of each list playing the role of
the terminating NUL. -/
def strncmpEq : List Char → List Char → Nat → Bool
  | _, _, 0 => true
  | as, bs, n + 1 =>
    match as, bs with
    | [], [] => true
    | [], b :: _ => nulChar = b
    | a :: _, [] => a = nulChar
    | a :: as, b :: bs => a = b && (a = nulChar || strncmpEq as bs n)

/-- `get_segment_type`: compares the segment text with `"."` and `".."`. -/
def getSegmentType (p : Path) (s : Seg) : SegType :=
  let rest := p.drop s.b
  if strncmpEq rest ['.'] s.size then .current
  else if strncmpEq rest ['.', '.'] s.size then .back
  else .normal

/-- Loop of `get_first_segment_without_root`: skip leading separators; fail
when the NUL is reached right after one. -/
def firstSegScanGo (st : Style) (p : Path) : Nat → Nat → Option Nat
  | 0, i => some i
  | k + 1, i =>
    if isSepAt st p i then
      (if charAt p (i + 1) = nulChar then none else firstSegScanGo st p k (i + 1))
    else some i

/-- `get_first_segment_without_root`.  On failure the returned struct holds
the values the C code stored before bailing out (begin = end = `segStart`,
size 0). -/
def getFirstSegmentWithoutRoot (st : Style) (p : Path) (segStart : Nat) :
    Bool × Seg :=
  let s0 : Seg := ⟨segStart, segStart, segStart, 0⟩
  if charAt p segStart = nulChar then (false, s0)
  else
    match firstSegScanGo st p (p.length - segStart) segStart with
    | none => (false, s0)
    | some b =>
      let e := findNextStop st p b
      (true, ⟨segStart, b, e, e - b⟩)

/-- `get_first_segment`. -/
def getFirstSegment (st : Style) (p : Path) : Bool × Seg :=
  getFirstSegmentWithoutRoot st p (getRoot st p)

/-- `get_next_segment`.  Returns `(false, s)` unchanged when no further
segment exists. -/
def getNextSegment (st : Style) (p : Path) (s : Seg) : Bool × Seg :=
  let c := s.b + s.size
  if charAt p c = nulChar then (false, s)
  else
    let c1 := skipSeps st p (c + 1)
    if charAt p c1 = nulChar then (false, s)
    else
      let e := findNextStop st p c1
      (true, ⟨s.segStart, c1, e, e - c1⟩)

/-- Backward scan of `get_previous_segment`: `do { --c; if (c < segments)
return false; } while (is_separator(c));`.  `none` models the `return
false`. -/
def prevScanGo (st : Style) (p : Path) (segStart : Nat) : Nat → Nat → Option Nat
  | 0, _ => none
  | k + 1, c =>
    if c ≤ segStart then none
    else
      let c' := c - 1
      if isSepAt st p c' then prevScanGo st p segStart k c' else some c'

/-- Loop of `find_previous_stop`: move back while above `begin` and not on a
separator. -/
def findPrevStopGo (st : Style) (p : Path) (begin : Nat) : Nat → Nat → Nat
  | 0, c => c
  | k + 1, c =>
    if begin < c ∧ ¬ isSepAt st p c then findPrevStopGo st p begin k (c - 1) else c

/-- `find_previous_stop`. -/
def findPreviousStop (st : Style) (p : Path) (begin c : Nat) : Nat :=
  let c' := findPrevStopGo st p begin (c - begin) c
  if isSepAt st p c' then c' + 1 else c'

/-- `get_previous_segment`. -/
def getPreviousSegment (st : Style) (p : Path) (s : Seg) : Bool × Seg :=
  if s.b ≤ s.segStart then (false, s)
  else
    match prevScanGo st p s.segStart (s.b - s.segStart) s.b with
    | none => (false, s)
    | some c =>
      let e := c + 1
      let b := findPreviousStop st p s.segStart c
      (true, ⟨s.segStart, b, e, e - b⟩)

/-- The `while (get_next_segment(segment))` loop of `get_last_segment`. -/
def lastSegGo (st : Style) (p : Path) : Nat → Seg → Seg
  | 0, s => s
  | k + 1, s =>
    match getNextSegment st p s with
    | (false, _) => s
    | (true, s') => lastSegGo st p k s'

/-- `get_last_segment`. -/
def getLastSegment (st : Style) (p : Path) : Bool × Seg :=
  match getFirstSegment st p with
  | (false, s) => (false, s)
  | (true, s) => (true, lastSegGo st p (p.length - s.b) s)

/-- `get_last_segment_without_root`. -/
def getLastSegmentWithoutRoot (st : Style) (p : Path) : Bool × Seg :=
  match getFirstSegmentWithoutRoot st p 0 with
  | (false, s) => (false, s)
  | (true, s) => (true, lastSegGo st p (p.length - s.b) s)

/-- ASCII `tolower`, as used by the C locale. -/
def toLowerC (c : Char) : Char :=
  if 'A' ≤ c ∧ c ≤ 'Z' then Char.ofNat (c.toNat + 32) else c

/-- Loop of the Windows branch of `is_string_equal`. -/
def winStrEqGo : List Char → List Char → Nat → Bool
  | a :: as, b :: bs, n + 1 =>
    if toLowerC a ≠ toLowerC b then false else winStrEqGo as bs n
  | as, bs, n => decide (n = 0) || (as.isEmpty && bs.isEmpty)

/-- `is_string_equal`: case sensitive on Unix, case insensitive on Windows.
The two lists are the suffixes of the paths starting at the compared
pointers. -/
def isStringEqual (st : Style) (a b : List Char) (n : Nat) : Bool :=
  match st with
  | .unix => strncmpEq a b n
  | .windows => winStrEqGo a b n

/-- A caller buffer; its length is the capacity `buffer_size`. -/
abbrev Buf := List Char

/-- `memmove(&buffer[pos], s, s.length)` for buffers modelled as lists;
out-of-range writes are dropped (`List.set` ignores them), matching the fact
that `output_sized` never produces them. -/
def writeAt : Buf → Nat → List Char → Buf
  | buf, _, [] => buf
  | buf, i, c :: cs => writeAt (buf.set i c) (i + 1) cs

/-- `output_sized`: write as much of `s` at `position` as the capacity
allows, and return the untruncated length together with the new buffer. -/
def outputSized (buf : Buf) (position : Nat) (s : List Char) : Buf × Nat :=
  let length := s.length
  let amountWritten :=
    if buf.length > position + length then length
    else if buf.length > position then buf.length - position
    else 0
  (if amountWritten > 0 then writeAt buf position (s.take amountWritten) else buf,
   length)

/-- `output_current`. -/
def outputCurrent (buf : Buf) (position : Nat) : Buf × Nat :=
  outputSized buf position ['.']

/-- `output_back`. -/
def outputBack (buf : Buf) (position : Nat) : Buf × Nat :=
  outputSized buf position ['.', '.']

/-- `output_separator`. -/
def outputSeparator (st : Style) (buf : Buf) (position : Nat) : Buf × Nat :=
  outputSized buf position [sepChar st]

/-- `output_dot`. -/
def outputDot (buf : Buf) (position : Nat) : Buf × Nat :=
  outputSized buf position ['.']

/-- `terminate_output`. -/
def terminateOutput (buf : Buf) (pos : Nat) : Buf :=
  if 0 < buf.length then
    if pos ≥ buf.length then buf.set (buf.length - 1) nulChar
    else buf.set pos nulChar
  else buf

/-- `struct cwk_segment_joined`; the `paths` array is passed separately,
with the end of the list playing the role of the NULL terminator. -/
structure SegJoined where
  seg : Seg
  idx : Nat
deriving DecidableEq, Repr

/-- Loop of `get_first_segment_joined`: try each path in turn. -/
def gfsjGo (st : Style) (ps : List Path) : Nat → Nat → Seg → Bool × SegJoined
  | 0, idx, s => (false, ⟨s, idx⟩)
  | k + 1, idx, _ =>
    match getFirstSegment st (ps.getD idx []) with
    | (true, s') => (true, ⟨s', idx⟩)
    | (false, s') => gfsjGo st ps k (idx + 1) s'

/-- `get_first_segment_joined`. -/
def getFirstSegmentJoined (st : Style) (ps : List Path) : Bool × SegJoined :=
  gfsjGo st ps ps.length 0 ⟨0, 0, 0, 0⟩

/-- Cross-path loop of `get_next_segment_joined`: advance the path index
until a path yields a first segment (roots of later paths count as segment
text). -/
def gnsjGo (st : Style) (ps : List Path) : Nat → Nat → Seg → Bool × SegJoined
  | 0, idx, s => (false, ⟨s, idx⟩)
  | k + 1, idx, s =>
    let idx' := idx + 1
    if ps.length ≤ idx' then (false, ⟨s, idx'⟩)
    else
      match getFirstSegmentWithoutRoot st (ps.getD idx' []) 0 with
      | (true, s') => (true, ⟨s', idx'⟩)
      | (false, s') => gnsjGo st ps k idx' s'

/-- `get_next_segment_joined`. -/
def getNextSegmentJoined (st : Style) (ps : List Path) (sj : SegJoined) :
    Bool × SegJoined :=
  if ps.length ≤ sj.idx then (false, sj)
  else
    match getNextSegment st (ps.getD sj.idx []) sj.seg with
    | (true, s') => (true, ⟨s', sj.idx⟩)
    | (false, _) => gnsjGo st ps (ps.length - sj.idx) sj.idx sj.seg

/-- Cross-path loop of `get_previous_segment_joined`; the bound is the
current path index, which the loop decrements until a path yields a last
segment (it breaks with index 0). -/
def gpsjGo (st : Style) (ps : List Path) : Nat → Seg → Bool × SegJoined
  | 0, s => (false, ⟨s, 0⟩)
  | k + 1, _ =>
    let r := if k = 0 then getLastSegment st (ps.getD 0 [])
             else getLastSegmentWithoutRoot st (ps.getD k [])
    match r with
    | (true, s') => (true, ⟨s', k⟩)
    | (false, s') => gpsjGo st ps k s'

/-- `get_previous_segment_joined`. -/
def getPreviousSegmentJoined (st : Style) (ps : List Path) (sj : SegJoined) :
    Bool × SegJoined :=
  if ps.isEmpty then (false, sj)
  else
    match getPreviousSegment st (ps.getD sj.idx []) sj.seg with
    | (true, s') => (true, ⟨s', sj.idx⟩)
    | (false, _) => gpsjGo st ps sj.idx sj.seg

/-- An iteration bound that dominates the number of segments of a joined
path (every segment consumes at least one character of some fragment). -/
def jfuel (ps : List Path) : Nat :=
  ps.foldr (fun q a => q.length + 1 + a) 1

/-- Loop of `segment_back_will_be_removed`, with its running counter. -/
def sbwrGo (st : Style) (ps : List Path) : Nat → SegJoined → Int → Bool
  | 0, _, _ => false
  | k + 1, sj, counter =>
    match getPreviousSegmentJoined st ps sj with
    | (false, _) => false
    | (true, sj') =>
      match getSegmentType (ps.getD sj'.idx []) sj'.seg with
      | .normal => if counter + 1 > 0 then true else sbwrGo st ps k sj' (counter + 1)
      | .back => sbwrGo st ps k sj' (counter - 1)
      | .current => sbwrGo st ps k sj' counter

/-- `segment_back_will_be_removed`. -/
def segmentBackWillBeRemoved (st : Style) (ps : List Path) (fuel : Nat)
    (sj : SegJoined) : Bool :=
  sbwrGo st ps fuel sj 0

/-- Loop of `segment_normal_will_be_removed`, with its running counter. -/
def snwrGo (st : Style) (ps : List Path) : Nat → SegJoined → Int → Bool
  | 0, _, _ => false
  | k + 1, sj, counter =>
    match getNextSegmentJoined st ps sj with
    | (false, _) => false
    | (true, sj') =>
      match getSegmentType (ps.getD sj'.idx []) sj'.seg with
      | .normal => snwrGo st ps k sj' (counter + 1)
      | .back => if counter - 1 < 0 then true else snwrGo st ps k sj' (counter - 1)
      | .current => snwrGo st ps k sj' counter

/-- `segment_normal_will_be_removed`. -/
def segmentNormalWillBeRemoved (st : Style) (ps : List Path) (fuel : Nat)
    (sj : SegJoined) : Bool :=
  snwrGo st ps fuel sj 0

/-- `segment_will_be_removed`. -/
def segmentWillBeRemoved (st : Style) (ps : List Path) (fuel : Nat)
    (sj : SegJoined) (absolute : Bool) : Bool :=
  match getSegmentType (ps.getD sj.idx []) sj.seg with
  | .current => true
  | .back =>
    if absolute then true else segmentBackWillBeRemoved st ps fuel sj
  | .normal => segmentNormalWillBeRemoved st ps fuel sj

/-- Loop of `segment_joined_skip_invisible`. -/
def skipInvisibleGo (st : Style) (ps : List Path) (absolute : Bool) :
    Nat → SegJoined → Bool × SegJoined
  | 0, sj => (true, sj)
  | k + 1, sj =>
    if segmentWillBeRemoved st ps (jfuel ps) sj absolute then
      match getNextSegmentJoined st ps sj with
      | (false, sj') => (false, sj')
      | (true, sj') => skipInvisibleGo st ps absolute k sj'
    else (true, sj)

/-- `segment_joined_skip_invisible`. -/
def segmentJoinedSkipInvisible (st : Style) (ps : List Path)
    (sj : SegJoined) (absolute : Bool) : Bool × SegJoined :=
  skipInvisibleGo st ps absolute (jfuel ps) sj

/-- Main loop of `join_and_normalize_multiple`: state is the buffer, the
position and the `has_segment_output` flag. -/
def janmGo (st : Style) (ps : List Path) (absolute : Bool) :
    Nat → SegJoined → Buf → Nat → Bool → Buf × Nat × Bool
  | 0, _, buf, pos, ho => (buf, pos, ho)
  | k + 1, sj, buf, pos, ho =>
    let (buf, pos, ho) :=
      if segmentWillBeRemoved st ps (jfuel ps) sj absolute then (buf, pos, ho)
      else
        let (buf, pos) :=
          if ho then
            let (buf, n) := outputSeparator st buf pos
            (buf, pos + n)
          else (buf, pos)
        let (buf, n) :=
          outputSized buf pos ((ps.getD sj.idx []).drop sj.seg.b |>.take sj.seg.size)
        (buf, pos + n, true)
    match getNextSegmentJoined st ps sj with
    | (false, _) => (buf, pos, ho)
    | (true, sj') => janmGo st ps absolute k sj' buf pos ho

/-- `join_and_normalize_multiple`. -/
def joinAndNormalizeMultiple (st : Style) (ps : List Path) (buf : Buf) :
    Buf × Nat :=
  let p0 := ps.getD 0 []
  let pos := getRoot st p0
  let absolute := isRootAbsolute st p0 pos
  let (buf, _) := outputSized buf 0 (p0.take pos)
  match getFirstSegmentJoined st ps with
  | (false, _) => (terminateOutput buf pos, pos)
  | (true, sj) =>
    let (buf, pos, ho) := janmGo st ps absolute (jfuel ps) sj buf pos false
    let (buf, pos) :=
      if ¬ ho ∧ pos = 0 then
        let (buf, n) := outputCurrent buf pos
        (buf, pos + n)
      else (buf, pos)
    (terminateOutput buf pos, pos)

/-- `normalize`. -/
def normalize (st : Style) (p : Path) (buf : Buf) : Buf × Nat :=
  joinAndNormalizeMultiple st [p] buf

/-- `join`. -/
def join (st : Style) (pathA pathB : Path) (buf : Buf) : Buf × Nat :=
  joinAndNormalizeMultiple st [pathA, pathB] buf

/-- `join_multiple`. -/
def joinMultiple (st : Style) (ps : List Path) (buf : Buf) : Buf × Nat :=
  joinAndNormalizeMultiple st ps buf

/-- `get_absolute`: prefix a synthetic root when the base is not absolute;
drop the base when the second path is already absolute. -/
def getAbsolute (st : Style) (base p : Path) (buf : Buf) : Buf × Nat :=
  let pre : List Path := if isAbsolute st base then [] else [[sepChar st]]
  let ps := if isAbsolute st p then pre ++ [p] else pre ++ [base, p]
  joinAndNormalizeMultiple st ps buf

/-- Loop of `skip_segments_until_diverge`.  Returns the two cursors and the
two availability flags. -/
def skipDivergeGo (st : Style) (bps ops : List Path) (absolute : Bool) :
    Nat → SegJoined → SegJoined → SegJoined × SegJoined × Bool × Bool
  | 0, bsj, osj => (bsj, osj, false, false)
  | k + 1, bsj, osj =>
    let (ba, bsj) := segmentJoinedSkipInvisible st bps bsj absolute
    let (oa, osj) := segmentJoinedSkipInvisible st ops osj absolute
    if ¬ (ba ∧ oa) then (bsj, osj, ba, oa)
    else if ¬ isStringEqual st ((bps.getD bsj.idx []).drop bsj.seg.b)
        ((ops.getD osj.idx []).drop osj.seg.b) bsj.seg.size then
      (bsj, osj, ba, oa)
    else
      let (ba, bsj) := getNextSegmentJoined st bps bsj
      let (oa, osj) := getNextSegmentJoined st ops osj
      if ba ∧ oa then skipDivergeGo st bps ops absolute k bsj osj
      else (bsj, osj, ba, oa)

/-- First output loop of `get_relative`: one back segment per remaining
visible base segment. -/
def relBaseGo (st : Style) (bps : List Path) (absolute : Bool) :
    Nat → SegJoined → Buf → Nat → Bool → Buf × Nat × Bool
  | 0, _, buf, pos, ho => (buf, pos, ho)
  | k + 1, bsj, buf, pos, ho =>
    match segmentJoinedSkipInvisible st bps bsj absolute with
    | (false, _) => (buf, pos, ho)
    | (true, bsj) =>
      let (buf, n) := outputBack buf pos
      let pos := pos + n
      let (buf, n) := outputSeparator st buf pos
      let pos := pos + n
      match getNextSegmentJoined st bps bsj with
      | (false, _) => (buf, pos, true)
      | (true, bsj') => relBaseGo st bps absolute k bsj' buf pos true

/-- Second output loop of `get_relative`: emit the remaining visible target
segments. -/
def relOtherGo (st : Style) (ops : List Path) (absolute : Bool) :
    Nat → SegJoined → Buf → Nat → Bool → Buf × Nat × Bool
  | 0, _, buf, pos, ho => (buf, pos, ho)
  | k + 1, osj, buf, pos, ho =>
    match segmentJoinedSkipInvisible st ops osj absolute with
    | (false, _) => (buf, pos, ho)
    | (true, osj) =>
      let (buf, n) :=
        outputSized buf pos ((ops.getD osj.idx []).drop osj.seg.b |>.take osj.seg.size)
      let pos := pos + n
      let (buf, n) := outputSeparator st buf pos
      let pos := pos + n
      match getNextSegmentJoined st ops osj with
      | (false, _) => (buf, pos, true)
      | (true, osj') => relOtherGo st ops absolute k osj' buf pos true

/-- `get_relative`. -/
def getRelative (st : Style) (baseDirectory p : Path) (buf : Buf) :
    Buf × Nat :=
  let baseRootLength := getRoot st baseDirectory
  let pathRootLength := getRoot st p
  if baseRootLength ≠ pathRootLength ∨
      ¬ isStringEqual st baseDirectory p baseRootLength then
    (terminateOutput buf 0, 0)
  else
    let absolute := isRootAbsolute st baseDirectory baseRootLength
    let bps : List Path := [baseDirectory]
    let ops : List Path := [p]
    let (_, bsj) := getFirstSegmentJoined st bps
    let (_, osj) := getFirstSegmentJoined st ops
    let (bsj, osj, ba, oa) :=
      skipDivergeGo st bps ops absolute (jfuel bps + jfuel ops) bsj osj
    let (buf, pos, ho) :=
      if ba then relBaseGo st bps absolute (jfuel bps) bsj buf 0 false
      else (buf, 0, false)
    let (buf, pos, ho) :=
      if oa then relOtherGo st ops absolute (jfuel ops) osj buf pos ho
      else (buf, pos, ho)
    let (buf, pos) :=
      if ho then (buf, pos - 1)
      else
        let (buf, n) := outputCurrent buf pos
        (buf, pos + n)
    (terminateOutput buf pos, pos)

/-- Main loop of `get_intersection`; `endOff` is the offset of the end of
the last matching base segment. -/
def intersectGo (st : Style) (bps ops : List Path) (absolute : Bool) :
    Nat → SegJoined → SegJoined → Nat → Nat
  | 0, _, _, endOff => endOff
  | k + 1, base, other, endOff =>
    match segmentJoinedSkipInvisible st bps base absolute with
    | (false, _) => endOff
    | (true, base) =>
      match segmentJoinedSkipInvisible st ops other absolute with
      | (false, _) => endOff
      | (true, other) =>
        if ¬ isStringEqual st ((bps.getD base.idx []).drop base.seg.b)
            ((ops.getD other.idx []).drop other.seg.b) base.seg.size then
          endOff
        else
          let endOff := base.seg.e
          match getNextSegmentJoined st bps base with
          | (false, _) => endOff
          | (true, base') =>
            match getNextSegmentJoined st ops other with
            | (false, _) => endOff
            | (true, other') => intersectGo st bps ops absolute k base' other' endOff

/-- `get_intersection`. -/
def getIntersection (st : Style) (pathBase pathOther : Path) : Nat :=
  let baseRootLength := getRoot st pathBase
  if ¬ isStringEqual st pathBase pathOther baseRootLength then 0
  else
    match getFirstSegmentJoined st [pathBase] with
    | (false, _) => baseRootLength
    | (true, base) =>
      match getFirstSegmentJoined st [pathOther] with
      | (false, _) => baseRootLength
      | (true, other) =>
        let absolute := isRootAbsolute st pathBase baseRootLength
        intersectGo st [pathBase] [pathOther] absolute (jfuel [pathBase])
          base other baseRootLength

/-- `change_root`. -/
def changeRoot (st : Style) (p newRoot : Path) (buf : Buf) : Buf × Nat :=
  let rootLength := getRoot st p
  let tail := p.drop rootLength
  let buf := (outputSized buf newRoot.length tail).1
  let buf := (outputSized buf 0 newRoot).1
  let newPathSize := tail.length + newRoot.length
  (terminateOutput buf newPathSize, newPathSize)

/-- The trailing-separator trimming loop shared by `change_segment` and
`change_basename`: the trimmed length of the first `n` characters. -/
def trimEndSeps (st : Style) (v : Path) : Nat → Nat
  | 0 => 0
  | n + 1 => if isSepAt st v n then trimEndSeps st v n else n + 1

/-- `change_segment`. -/
def changeSegment (st : Style) (p : Path) (s : Seg) (value : Path)
    (buf : Buf) : Buf × Nat :=
  let r0 := outputSized buf 0 (p.take s.b)
  let buf := r0.1
  let pos := r0.2
  let value := value.dropWhile (fun c => isSepChar st c)
  let valueSize := trimEndSeps st value value.length
  let tail := p.drop s.e
  let tailSize := tail.length
  let buf := (outputSized buf (pos + valueSize) tail).1
  let r1 := outputSized buf pos (value.take valueSize)
  let buf := r1.1
  let pos := pos + r1.2
  let pos := pos + tailSize
  (terminateOutput buf pos, pos)

/-- `change_basename`. -/
def changeBasename (st : Style) (p newBasename : Path) (buf : Buf) :
    Buf × Nat :=
  match getLastSegment st p with
  | (false, _) =>
    let rootSize := getRoot st p
    let r0 := outputSized buf 0 (p.take rootSize)
    let buf := r0.1
    let pos := r0.2
    let nb := newBasename.dropWhile (fun c => isSepChar st c)
    let nbSize := trimEndSeps st nb nb.length
    let r1 := outputSized buf pos (nb.take nbSize)
    let buf := r1.1
    let pos := pos + r1.2
    (terminateOutput buf pos, pos)
  | (true, s) => changeSegment st p s newBasename buf

/-- The last-dot scan of `change_extension` over `[c, e)`; returns the
offset of the last dot, or the initial accumulator (the segment end). -/
def lastDotGo (p : Path) : Nat → Nat → Nat → Nat
  | 0, _, old => old
  | k + 1, c, old => lastDotGo p k (c + 1) (if charAt p c = '.' then c else old)

/-- `change_extension`. -/
def changeExtension (st : Style) (p newExtension : Path) (buf : Buf) :
    Buf × Nat :=
  match getLastSegment st p with
  | (false, _) =>
    let rootSize := getRoot st p
    let r0 := outputSized buf 0 (p.take rootSize)
    let buf := r0.1
    let pos := r0.2
    let bp :=
      if charAt newExtension 0 ≠ '.' then
        let r1 := outputDot buf pos
        (r1.1, pos + r1.2)
      else (buf, pos)
    let buf := bp.1
    let pos := bp.2
    let r2 := outputSized buf pos newExtension
    let buf := r2.1
    let pos := pos + r2.2
    (terminateOutput buf pos, pos)
  | (true, s) =>
    let oldExtension := lastDotGo p (s.e - s.b) s.b s.e
    let r0 := outputSized buf 0 (p.take oldExtension)
    let buf := r0.1
    let pos := r0.2
    let newExt := if charAt newExtension 0 = '.' then newExtension.drop 1 else newExtension
    let newExtensionSize := newExt.length + 1
    let rT := outputSized buf (pos + newExtensionSize) (p.drop s.e)
    let buf := rT.1
    let trailSize := rT.2
    let rD := outputDot buf pos
    let buf := rD.1
    let pos := pos + rD.2
    let rE := outputSized buf pos newExt
    let buf := rE.1
    let pos := pos + rE.2
    let pos := pos + trailSize
    (terminateOutput buf pos, pos)

/-- Run a buffer-producing operation with an ample buffer and return the
characters it produced (the output string, without the terminator). -/
def runBuffered (f : Buf → Buf × Nat) : Path :=
  let n := (f []).2
  let (buf, n') := f (List.replicate (n + 1) nulChar)
  buf.take n'

/-- The output string of `normalize` with an ample buffer. -/
def normalizeOut (st : Style) (p : Path) : Path :=
  runBuffered (normalize st p)

/-- The output string of `get_relative` with an ample buffer. -/
def getRelativeOut (st : Style) (base p : Path) : Path :=
  runBuffered (getRelative st base p)

/-- The output string of `get_absolute` with an ample buffer. -/
def getAbsoluteOut (st : Style) (base p : Path) : Path :=
  runBuffered (getAbsolute st base p)

/-- Tail of the segment enumeration of a single path: the segments reached
from `s` by iterating `get_next_segment`. -/
def segsNextGo (st : Style) (p : Path) : Nat → Seg → List Seg
  | 0, _ => []
  | k + 1, s =>
    match getNextSegment st p s with
    | (false, _) => []
    | (true, s') => s' :: segsNextGo st p k s'

/-- The list of all segments of a path, in order, as produced by
`get_first_segment` / `get_next_segment`. -/
def segsOf (st : Style) (p : Path) : List Seg :=
  match getFirstSegment st p with
  | (false, _) => []
  | (true, s) => s :: segsNextGo st p (p.length - s.b) s

/-- The text of a segment. -/
def segSlice (p : Path) (s : Seg) : List Char :=
  (p.drop s.b).take s.size

/-- Whether a string is free of two consecutive separators. -/
def noConsecutiveSeps (st : Style) : Path → Bool
  | [] => true
  | [_] => true
  | a :: b :: rest =>
    !(isSepChar st a && isSepChar st b) && noConsecutiveSeps st (b :: rest)

/-- The truncation contract of a produced pair: capacity preserved, NUL at
`min length (capacity - 1)`. -/
def TermSafe (r : Buf × Nat) (cap : Nat) : Prop :=
  r.1.length = cap ∧ (0 < cap → r.1[min r.2 (cap - 1)]? = some nulChar)

/-- The types of the segments strictly before the current one in a joined
stream, nearest first, as enumerated by `get_previous_segment_joined`. -/
def prevTypesGo (st : Style) (ps : List Path) : Nat → SegJoined → List SegType
  | 0, _ => []
  | k + 1, sj =>
    match getPreviousSegmentJoined st ps sj with
    | (false, _) => []
    | (true, sj') =>
      getSegmentType (ps.getD sj'.idx []) sj'.seg :: prevTypesGo st ps k sj'

/-- The types of the segments strictly after the current one in a joined
stream, in order, as enumerated by `get_next_segment_joined`. -/
def nextTypesGo (st : Style) (ps : List Path) : Nat → SegJoined → List SegType
  | 0, _ => []
  | k + 1, sj =>
    match getNextSegmentJoined st ps sj with
    | (false, _) => []
    | (true, sj') =>
      getSegmentType (ps.getD sj'.idx []) sj'.seg :: nextTypesGo st ps k sj'

/-- Modelled from the spec (§4.4): the look-behind counter search for a
Back segment.  Walk backward; increment the counter on each Normal seen,
decrement on each Back; if the counter goes positive the Back is elided;
reaching the start with the counter at most 0 means it survives. -/
def specBackElided : Int → List SegType → Bool
  | _, [] => false
  | c, t :: ts =>
    match t with
    | .normal => if c + 1 > 0 then true else specBackElided (c + 1) ts
    | .back => specBackElided (c - 1) ts
    | .current => specBackElided c ts

/-- Modelled from the spec (§4.4): the look-ahead counter search for a
Normal segment.  Walk forward (exclusive); increment on Normal, decrement
on Back; if the counter goes negative the Normal is elided; otherwise it
survives. -/
def specNormalElided : Int → List SegType → Bool
  | _, [] => false
  | c, t :: ts =>
    match t with
    | .normal => specNormalElided (c + 1) ts
    | .back => if c - 1 < 0 then true else specNormalElided (c - 1) ts
    | .current => specNormalElided c ts

/-- A segment of `p` as the iterator produces it: inside the bounds,
nonempty, separator-free text, flanked on the left by a separator or the
segment area start and on the right by a separator or the end of the
string. -/
def ValidSeg (st : Style) (p : Path) (s : Seg) : Prop :=
  s.segStart ≤ s.b ∧ s.b < s.e ∧ s.e = s.b + s.size ∧ s.e ≤ p.length ∧
  (∀ i < s.e, s.b ≤ i → isSepAt st p i = false) ∧
  (s.b = s.segStart ∨ isSepAt st p (s.b - 1) = true) ∧
  (s.e = p.length ∨ isSepAt st p s.e = true)

instance (st : Style) (p : Path) (s : Seg) : Decidable (ValidSeg st p s) := by
  unfold ValidSeg
  infer_instance

/-- A proper C path string contains no NUL byte. -/
def NulFree (p : Path) : Prop := ∀ c ∈ p, c ≠ nulChar

instance (p : Path) : Decidable (NulFree p) := by
  unfold NulFree
  infer_instance

/-- The type a piece of segment text denotes. -/
def typeOfText (xs : List Char) : SegType :=
  if xs = ['.'] then .current else if xs = ['.', '.'] then .back else .normal

/-- Weight of a segment type in the elision balance: Normal counts +1,
Back counts -1, Current counts 0. -/
def typeWeight : SegType → Int
  | .normal => 1
  | .back => -1
  | .current => 0

/-- Sum of the type weights of a list of segment types. -/
def bal : List SegType → Int
  | [] => 0
  | t :: ts => typeWeight t + bal ts

/-- The elision pass of `join_and_normalize_multiple` at the level of the
segment list: process the segments left to right, keeping each segment
exactly when `segment_will_be_removed` would answer false.  The
accumulator `preT` holds the types of all segments already processed, most
recent first, exactly the order in which the backward walk of
`segment_back_will_be_removed` visits them. -/
def survivorsFrom (p : Path) (absolute : Bool) :
    List SegType → List Seg → List Seg
  | _, [] => []
  | preT, s :: rest =>
    let t := getSegmentType p s
    let removed :=
      match t with
      | .current => true
      | .back => absolute || specBackElided 0 preT
      | .normal => specNormalElided 0 (rest.map (getSegmentType p))
    if removed then survivorsFrom p absolute (t :: preT) rest
    else s :: survivorsFrom p absolute (t :: preT) rest

/-- The writing pass of `join_and_normalize_multiple` over a list of
surviving segments: emit a separator when something was already written,
then the segment text. -/
def renderFrom (st : Style) (p : Path) :
    List Seg → Buf → Nat → Bool → Buf × Nat × Bool
  | [], buf, pos, ho => (buf, pos, ho)
  | s :: rest, buf, pos, ho =>
    let bp :=
      if ho then
        let r := outputSeparator st buf pos
        (r.1, pos + r.2)
      else (buf, pos)
    let r := outputSized bp.1 bp.2 (segSlice p s)
    renderFrom st p rest r.1 (bp.2 + r.2) true

/-- The characters the writing pass appends, as a plain string. -/
def renderSlices (st : Style) : Bool → List (List Char) → List Char
  | _, [] => []
  | ho, x :: rest =>
    (if ho then [sepChar st] else []) ++ x ++ renderSlices st true rest

/-- A run of Back segments followed by a run of Normal segments, with no
Current segment anywhere. -/
def backsThenNormalsB : List SegType → Bool
  | [] => true
  | .back :: ts => backsThenNormalsB ts
  | .normal :: ts => ts.all fun t => t == SegType.normal
  | .current :: _ => false

/-- The iterator run of a path: `RunTo st p pre s` says the iterator,
started at the first segment, has visited exactly the segments of `pre`
in order and now stands on `s`. -/
inductive RunTo (st : Style) (p : Path) : List Seg → Seg → Prop
  | first (s : Seg) (h : getFirstSegment st p = (true, s)) : RunTo st p [] s
  | step (pre : List Seg) (s s' : Seg) (h : RunTo st p pre s)
      (hn : getNextSegment st p s = (true, s')) : RunTo st p (pre ++ [s]) s'

/-- The output of `normalize`, at the level of the root, the surviving
segments and the rendered string. -/
def normalSpec (st : Style) (p : Path) : Path :=
  match getFirstSegment st p with
  | (false, _) => p.take (getRoot st p)
  | (true, s0) =>
    let survivors := survivorsFrom p (isRootAbsolute st p (getRoot st p)) []
      (s0 :: segsNextGo st p (p.length - s0.b) s0)
    if survivors.isEmpty ∧ getRoot st p = 0 then ['.']
    else p.take (getRoot st p) ++
      renderSlices st false (survivors.map (segSlice p))

/-- Proper segment texts: nonempty, separator-free, NUL-free. -/
def GoodSlices (st : Style) (xs : List (List Char)) : Prop :=
  ∀ x ∈ xs, x ≠ [] ∧ ∀ c ∈ x, isSepChar st c = false ∧ c ≠ nulChar

/-- The segment records that parsing a rendered string produces:
`segStart` is the root length `r`, and each segment begins one past the
end of the previous one. -/
def renderSegs (r : Nat) : Nat → List (List Char) → List Seg
  | _, [] => []
  | b, x :: xs =>
    ⟨r, b, b + x.length, x.length⟩ :: renderSegs r (b + x.length + 1) xs

/-- The shape of every `normalize` output on Unix: empty, a bare root, a
bare dot, or an optional root followed by good slices joined by single
separators whose types are Back segments first and then Normal segments
(only Normal ones after a root). -/
def NormalForm (O : Path) : Prop :=
  O = [] ∨ O = [sepChar .unix] ∨ O = ['.'] ∨
  ∃ (R : List Char) (xs : List (List Char)),
    (R = [] ∨ R = [sepChar .unix]) ∧ GoodSlices .unix xs ∧ xs ≠ [] ∧
    O = R ++ renderSlices .unix false xs ∧
    backsThenNormalsB (xs.map typeOfText) = true ∧
    (R ≠ [] → ∀ x ∈ xs, typeOfText x = .normal)

/-- C4: `is_absolute` returns true exactly when the root length is positive
and the last character of the root is a separator of the style, for every
style and every path; `is_relative` is its negation. -/
theorem claim4_absoluteness_rule (st : Style) (p : Path) :
    isAbsolute st p =
      (decide (0 < getRoot st p) && isSepAt st p (getRoot st p - 1)) ∧
    isRelative st p = ! isAbsolute st p := by
  refine ⟨?_, rfl⟩
  unfold isAbsolute isRootAbsolute
  rcases getRoot st p with _ | n <;> simp

/-- C8: under the Windows style, `"C:test.txt"` has root length 2 and is
relative, while `"C:\test.txt"` has root length 3 and is absolute. -/
theorem claim8_windows_drive_roots :
    getRoot .windows "C:test.txt".data = 2 ∧
    isRelative .windows "C:test.txt".data = true ∧
    getRoot .windows "C:\\test.txt".data = 3 ∧
    isAbsolute .windows "C:\\test.txt".data = true := by
  decide

/-- C2, counterexample: under the Windows style, normalizing
`"x\..\a:."` yields `"a:."`, whose own normalization is `"a:"` — so
`normalize` is not idempotent for every style: the first surviving segment
of the relative input is re-parsed as a drive root on the second pass. -/
theorem claim2_counterexample :
    normalizeOut .windows "x\\..\\a:.".data = "a:.".data ∧
    normalizeOut .windows (normalizeOut .windows "x\\..\\a:.".data) = "a:".data ∧
    (normalize .windows "x\\..\\a:.".data []).2 = 3 ∧
    (normalize .windows (normalizeOut .windows "x\\..\\a:.".data) []).2 = 2 ∧
    normalizeOut .windows (normalizeOut .windows "x\\..\\a:.".data) ≠
      normalizeOut .windows "x\\..\\a:.".data := by
  decide

/-- C3: on the absolute Unix paths `"/ab/x"` and `"/abc/y"`, which share
the root `"/"`, the relative-path round trip fails: `get_relative` compares
only the first `base segment size` characters of a segment pair, treats
`"ab"` and `"abc"` as equal, and returns `"../y"`; applying it to the base
gives `"/ab/y"`, not `normalize("/abc/y") = "/abc/y"`. -/
theorem claim3_failing_input :
    isAbsolute .unix "/ab/x".data = true ∧
    isAbsolute .unix "/abc/y".data = true ∧
    getRoot .unix "/ab/x".data = getRoot .unix "/abc/y".data ∧
    getRelativeOut .unix "/ab/x".data "/abc/y".data = "../y".data ∧
    getAbsoluteOut .unix "/ab/x".data "../y".data = "/ab/y".data ∧
    normalizeOut .unix "/abc/y".data = "/abc/y".data ∧
    getAbsoluteOut .unix "/ab/x".data
        (getRelativeOut .unix "/ab/x".data "/abc/y".data) ≠
      normalizeOut .unix "/abc/y".data := by
  decide

/-- C5: `get_intersection` does not return 0 for roots of different
lengths: on the Unix paths `"a/b"` (root length 0) and `"/a/b"` (root
length 1) — one relative, one absolute — it returns 3, although its own
documentation promises 0 for mixed relative and absolute paths. -/
theorem claim5_failing_input :
    getRoot .unix "a/b".data = 0 ∧
    getRoot .unix "/a/b".data = 1 ∧
    isSepChar .unix (charAt "/a/b".data 0) = true ∧
    getIntersection .unix "a/b".data "/a/b".data = 3 := by
  decide

/-- The returned length of `output_sized` is the untruncated length of its
argument, whatever the buffer. -/
theorem outputSized_snd (buf : Buf) (pos : Nat) (s : List Char) :
    (outputSized buf pos s).2 = s.length := rfl

/-- Writing preserves the buffer capacity. -/
theorem writeAt_length : ∀ (s : List Char) (buf : Buf) (i : Nat),
    (writeAt buf i s).length = buf.length
  | [], _, _ => rfl
  | c :: cs, buf, i => by
    rw [writeAt, writeAt_length cs]
    exact buf.length_set i c

/-- `output_sized` preserves the buffer capacity. -/
theorem outputSized_length (buf : Buf) (pos : Nat) (s : List Char) :
    (outputSized buf pos s).1.length = buf.length := by
  simp only [outputSized]
  repeat' split
  all_goals simp [writeAt_length]

/-- `terminate_output` preserves the buffer capacity. -/
theorem terminateOutput_length (buf : Buf) (pos : Nat) :
    (terminateOutput buf pos).length = buf.length := by
  unfold terminateOutput
  split
  · split <;> simp
  · rfl

/-- A capacity-0 buffer stays empty under `output_sized`. -/
theorem outputSized_nil (pos : Nat) (s : List Char) :
    outputSized [] pos s = ([], s.length) := by
  simp [outputSized]

/-- A capacity-0 buffer stays empty under `terminate_output`. -/
theorem terminateOutput_nil (pos : Nat) : terminateOutput [] pos = [] := rfl

/-- After `terminate_output`, the buffer holds the NUL at position
`min pos (capacity - 1)`. -/
theorem terminateOutput_get (buf : Buf) (pos : Nat) (h : 0 < buf.length) :
    (terminateOutput buf pos)[min pos (buf.length - 1)]? = some nulChar := by
  unfold terminateOutput
  rw [if_pos h]
  by_cases hp : pos ≥ buf.length
  · rw [if_pos hp, min_eq_right (by omega)]
    exact List.getElem?_set_eq_of_lt _ (by omega)
  · rw [if_neg hp, min_eq_left (by omega)]
    exact List.getElem?_set_eq_of_lt _ (by omega)

/-- The length and flag outcome of the main normalization loop does not
depend on the buffer it writes to. -/
theorem janmGo_snd (st : Style) (ps : List Path) (ab : Bool) :
    ∀ (k : Nat) (sj : SegJoined) (buf buf' : Buf) (pos : Nat) (ho : Bool),
      (janmGo st ps ab k sj buf pos ho).2 = (janmGo st ps ab k sj buf' pos ho).2 := by
  intro k
  induction k with
  | zero => intros; rfl
  | succ k ih =>
    intro sj buf buf' pos ho
    rw [janmGo, janmGo]
    rcases hn : getNextSegmentJoined st ps sj with ⟨bn, sj'⟩
    by_cases hr : segmentWillBeRemoved st ps (jfuel ps) sj ab <;>
      simp only [hr, if_true, if_false, Bool.false_eq_true, outputSized,
        outputSeparator, hn] <;>
      cases bn <;> cases ho <;> simp only [if_true, if_false] <;>
      first
        | rfl
        | exact ih ..

/-- The main normalization loop preserves the buffer capacity. -/
theorem janmGo_length (st : Style) (ps : List Path) (ab : Bool) :
    ∀ (k : Nat) (sj : SegJoined) (buf : Buf) (pos : Nat) (ho : Bool),
      (janmGo st ps ab k sj buf pos ho).1.length = buf.length := by
  intro k
  induction k with
  | zero => intros; rfl
  | succ k ih =>
    intro sj buf buf' pos
    rw [janmGo]
    rcases hn : getNextSegmentJoined st ps sj with ⟨bn, sj'⟩
    by_cases hr : segmentWillBeRemoved st ps (jfuel ps) sj ab <;>
      simp only [hr, if_true, if_false, Bool.false_eq_true, hn] <;>
      cases bn <;> cases pos <;>
      simp only [if_true, if_false] <;>
      simp [ih, outputSized_length, outputSeparator]

/-- The main normalization loop leaves a capacity-0 buffer empty. -/
theorem janmGo_nil (st : Style) (ps : List Path) (ab : Bool) :
    ∀ (k : Nat) (sj : SegJoined) (pos : Nat) (ho : Bool),
      (janmGo st ps ab k sj [] pos ho).1 = [] := by
  intro k
  induction k with
  | zero => intros; rfl
  | succ k ih =>
    intro sj pos ho
    rw [janmGo]
    rcases hn : getNextSegmentJoined st ps sj with ⟨bn, sj'⟩
    by_cases hr : segmentWillBeRemoved st ps (jfuel ps) sj ab <;>
      simp only [hr, if_true, if_false, Bool.false_eq_true, hn,
        outputSized_nil, outputSeparator] <;>
      cases bn <;> cases ho <;>
      simp only [if_true, if_false] <;>
      first
        | rfl
        | simp [outputSized_nil, ih]

/-- The length and flag outcome of the back-segment output loop of
`get_relative` does not depend on the buffer. -/
theorem relBaseGo_snd (st : Style) (bps : List Path) (ab : Bool) :
    ∀ (k : Nat) (sj : SegJoined) (buf buf' : Buf) (pos : Nat) (ho : Bool),
      (relBaseGo st bps ab k sj buf pos ho).2 =
        (relBaseGo st bps ab k sj buf' pos ho).2 := by
  intro k
  induction k with
  | zero => intros; rfl
  | succ k ih =>
    intro sj buf buf' pos ho
    rw [relBaseGo, relBaseGo]
    rcases hs : segmentJoinedSkipInvisible st bps sj ab with ⟨bs, sj1⟩
    cases bs <;> simp only [hs]
    rcases hn : getNextSegmentJoined st bps sj1 with ⟨bn, sj2⟩
    simp only [outputSized, outputBack, outputSeparator, hn]
    cases bn <;> first | rfl | exact ih ..

/-- The back-segment output loop preserves the buffer capacity. -/
theorem relBaseGo_length (st : Style) (bps : List Path) (ab : Bool) :
    ∀ (k : Nat) (sj : SegJoined) (buf : Buf) (pos : Nat) (ho : Bool),
      (relBaseGo st bps ab k sj buf pos ho).1.length = buf.length := by
  intro k
  induction k with
  | zero => intros; rfl
  | succ k ih =>
    intro sj buf pos ho
    rw [relBaseGo]
    rcases hs : segmentJoinedSkipInvisible st bps sj ab with ⟨bs, sj1⟩
    cases bs <;> simp only [hs]
    rcases hn : getNextSegmentJoined st bps sj1 with ⟨bn, sj2⟩
    simp only [outputBack, outputSeparator, hn]
    cases bn <;> simp [ih, outputSized_length]

/-- The back-segment output loop leaves a capacity-0 buffer empty. -/
theorem relBaseGo_nil (st : Style) (bps : List Path) (ab : Bool) :
    ∀ (k : Nat) (sj : SegJoined) (pos : Nat) (ho : Bool),
      (relBaseGo st bps ab k sj [] pos ho).1 = [] := by
  intro k
  induction k with
  | zero => intros; rfl
  | succ k ih =>
    intro sj pos ho
    rw [relBaseGo]
    rcases hs : segmentJoinedSkipInvisible st bps sj ab with ⟨bs, sj1⟩
    cases bs <;> simp only [hs]
    rcases hn : getNextSegmentJoined st bps sj1 with ⟨bn, sj2⟩
    simp only [outputBack, outputSeparator, outputSized_nil, hn]
    cases bn <;> first | rfl | exact ih ..

/-- The length and flag outcome of the target-segment output loop of
`get_relative` does not depend on the buffer. -/
theorem relOtherGo_snd (st : Style) (ops : List Path) (ab : Bool) :
    ∀ (k : Nat) (sj : SegJoined) (buf buf' : Buf) (pos : Nat) (ho : Bool),
      (relOtherGo st ops ab k sj buf pos ho).2 =
        (relOtherGo st ops ab k sj buf' pos ho).2 := by
  intro k
  induction k with
  | zero => intros; rfl
  | succ k ih =>
    intro sj buf buf' pos ho
    rw [relOtherGo, relOtherGo]
    rcases hs : segmentJoinedSkipInvisible st ops sj ab with ⟨bs, sj1⟩
    cases bs <;> simp only [hs]
    rcases hn : getNextSegmentJoined st ops sj1 with ⟨bn, sj2⟩
    simp only [outputSized, outputSeparator, hn]
    cases bn <;> first | rfl | exact ih ..

/-- The target-segment output loop preserves the buffer capacity. -/
theorem relOtherGo_length (st : Style) (ops : List Path) (ab : Bool) :
    ∀ (k : Nat) (sj : SegJoined) (buf : Buf) (pos : Nat) (ho : Bool),
      (relOtherGo st ops ab k sj buf pos ho).1.length = buf.length := by
  intro k
  induction k with
  | zero => intros; rfl
  | succ k ih =>
    intro sj buf pos ho
    rw [relOtherGo]
    rcases hs : segmentJoinedSkipInvisible st ops sj ab with ⟨bs, sj1⟩
    cases bs <;> simp only [hs]
    rcases hn : getNextSegmentJoined st ops sj1 with ⟨bn, sj2⟩
    simp only [outputSeparator, hn]
    cases bn <;> simp [ih, outputSized_length]

/-- The target-segment output loop leaves a capacity-0 buffer empty. -/
theorem relOtherGo_nil (st : Style) (ops : List Path) (ab : Bool) :
    ∀ (k : Nat) (sj : SegJoined) (pos : Nat) (ho : Bool),
      (relOtherGo st ops ab k sj [] pos ho).1 = [] := by
  intro k
  induction k with
  | zero => intros; rfl
  | succ k ih =>
    intro sj pos ho
    rw [relOtherGo]
    rcases hs : segmentJoinedSkipInvisible st ops sj ab with ⟨bs, sj1⟩
    cases bs <;> simp only [hs]
    rcases hn : getNextSegmentJoined st ops sj1 with ⟨bn, sj2⟩
    simp only [outputSeparator, outputSized_nil, hn]
    cases bn <;> first | rfl | exact ih ..

/-- Eta-expansion of `output_sized`: its result is the written buffer
together with the untruncated length. -/
theorem outputSized_eta (buf : Buf) (pos : Nat) (s : List Char) :
    outputSized buf pos s = ((outputSized buf pos s).1, s.length) := rfl

/-- A pair made of `terminate_output` and its position satisfies the
truncation contract. -/
theorem termSafe_mk (B : Buf) (n cap : Nat) (hB : B.length = cap) :
    TermSafe (terminateOutput B n, n) cap := by
  refine ⟨by rw [terminateOutput_length, hB], fun h => ?_⟩
  have hg := terminateOutput_get B n (by omega)
  rwa [hB] at hg

/-- The length returned by `join_and_normalize_multiple` does not depend on
the buffer. -/
theorem janm_snd (st : Style) (ps : List Path) (buf buf' : Buf) :
    (joinAndNormalizeMultiple st ps buf).2 =
      (joinAndNormalizeMultiple st ps buf').2 := by
  unfold joinAndNormalizeMultiple
  dsimp only
  rcases hf : getFirstSegmentJoined st ps with ⟨bf, sj⟩
  rw [outputSized_eta buf, outputSized_eta buf']
  cases bf <;> simp only [hf]
  have hsnd := janmGo_snd st ps
    (isRootAbsolute st (ps.getD 0 []) (getRoot st (ps.getD 0 [])))
    (jfuel ps) sj
    (outputSized buf 0 ((ps.getD 0 []).take (getRoot st (ps.getD 0 [])))).1
    (outputSized buf' 0 ((ps.getD 0 []).take (getRoot st (ps.getD 0 [])))).1
    (getRoot st (ps.getD 0 [])) false
  rcases h1 : janmGo st ps _ (jfuel ps) sj
    (outputSized buf 0 ((ps.getD 0 []).take (getRoot st (ps.getD 0 [])))).1
    (getRoot st (ps.getD 0 [])) false with ⟨B1, pos1, ho1⟩
  rcases h2 : janmGo st ps _ (jfuel ps) sj
    (outputSized buf' 0 ((ps.getD 0 []).take (getRoot st (ps.getD 0 [])))).1
    (getRoot st (ps.getD 0 [])) false with ⟨B2, pos2, ho2⟩
  rw [h1, h2] at hsnd
  simp only [Prod.mk.injEq] at hsnd
  obtain ⟨hpos, hho⟩ := hsnd
  subst hpos; subst hho
  simp only [h1, h2, outputCurrent, outputSized]
  split <;> rfl

/-- `join_and_normalize_multiple` leaves a capacity-0 buffer empty. -/
theorem janm_nil (st : Style) (ps : List Path) :
    (joinAndNormalizeMultiple st ps []).1 = [] := by
  unfold joinAndNormalizeMultiple
  dsimp only
  rcases hf : getFirstSegmentJoined st ps with ⟨bf, sj⟩
  rw [outputSized_nil]
  cases bf <;> simp only [hf]
  · rfl
  have hnil := janmGo_nil st ps
    (isRootAbsolute st (ps.getD 0 []) (getRoot st (ps.getD 0 [])))
    (jfuel ps) sj (getRoot st (ps.getD 0 [])) false
  rcases h1 : janmGo st ps _ (jfuel ps) sj [] (getRoot st (ps.getD 0 [])) false
    with ⟨B1, pos1, ho1⟩
  rw [h1] at hnil
  simp only at hnil
  subst hnil
  simp only [outputCurrent, outputSized_nil]
  split <;> rfl

/-- `join_and_normalize_multiple` satisfies the truncation contract. -/
theorem janm_termSafe (st : Style) (ps : List Path) (buf : Buf) :
    TermSafe (joinAndNormalizeMultiple st ps buf) buf.length := by
  unfold joinAndNormalizeMultiple
  dsimp only
  rcases hf : getFirstSegmentJoined st ps with ⟨bf, sj⟩
  rw [outputSized_eta buf]
  cases bf <;> simp only [hf]
  · exact termSafe_mk _ _ _ (outputSized_length ..)
  rcases h1 : janmGo st ps _ (jfuel ps) sj
    (outputSized buf 0 ((ps.getD 0 []).take (getRoot st (ps.getD 0 [])))).1
    (getRoot st (ps.getD 0 [])) false with ⟨B1, pos1, ho1⟩
  have hlen : B1.length = buf.length := by
    have := janmGo_length st ps
      (isRootAbsolute st (ps.getD 0 []) (getRoot st (ps.getD 0 [])))
      (jfuel ps) sj
      (outputSized buf 0 ((ps.getD 0 []).take (getRoot st (ps.getD 0 [])))).1
      (getRoot st (ps.getD 0 [])) false
    rw [h1] at this
    simpa [outputSized_length] using this
  split
  · exact termSafe_mk _ _ _ ((outputSized_length B1 pos1 ['.']).trans hlen)
  · exact termSafe_mk _ _ _ hlen

/-- The length returned by `get_relative` does not depend on the buffer. -/
theorem getRelative_snd (st : Style) (base p : Path) (buf buf' : Buf) :
    (getRelative st base p buf).2 = (getRelative st base p buf').2 := by
  unfold getRelative
  dsimp only
  split
  · rfl
  rcases hb : getFirstSegmentJoined st [base] with ⟨_, bsj⟩
  rcases hoj : getFirstSegmentJoined st [p] with ⟨_, osj⟩
  rcases hd : skipDivergeGo st [base] [p]
      (isRootAbsolute st base (getRoot st base)) (jfuel [base] + jfuel [p])
      bsj osj with ⟨bsj1, osj1, ba, oa⟩
  simp only
  cases ba <;> simp only [Bool.false_eq_true, if_true, if_false]
  · cases oa <;> simp only [Bool.false_eq_true, if_true, if_false]
    · rfl
    · have hsnd := relOtherGo_snd st [p]
        (isRootAbsolute st base (getRoot st base)) (jfuel [p]) osj1 buf buf' 0 false
      rcases h1 : relOtherGo st [p] (isRootAbsolute st base (getRoot st base))
        (jfuel [p]) osj1 buf 0 false with ⟨B1, pos1, ho1⟩
      rcases h2 : relOtherGo st [p] (isRootAbsolute st base (getRoot st base))
        (jfuel [p]) osj1 buf' 0 false with ⟨B2, pos2, ho2⟩
      rw [h1, h2] at hsnd
      simp only [Prod.mk.injEq] at hsnd
      obtain ⟨hpos, hho⟩ := hsnd
      subst hpos; subst hho
      simp only [h1, h2, outputCurrent, outputSized]
      split <;> rfl
  · have hsnd := relBaseGo_snd st [base]
      (isRootAbsolute st base (getRoot st base)) (jfuel [base]) bsj1 buf buf' 0 false
    rcases h1 : relBaseGo st [base] (isRootAbsolute st base (getRoot st base))
      (jfuel [base]) bsj1 buf 0 false with ⟨B1, pos1, ho1⟩
    rcases h2 : relBaseGo st [base] (isRootAbsolute st base (getRoot st base))
      (jfuel [base]) bsj1 buf' 0 false with ⟨B2, pos2, ho2⟩
    rw [h1, h2] at hsnd
    simp only [Prod.mk.injEq] at hsnd
    obtain ⟨hpos, hho⟩ := hsnd
    subst hpos; subst hho
    cases oa <;> simp only [Bool.false_eq_true, if_true, if_false]
    · simp only [h1, h2, outputCurrent, outputSized]
      split <;> rfl
    · have hsnd2 := relOtherGo_snd st [p]
        (isRootAbsolute st base (getRoot st base)) (jfuel [p]) osj1 B1 B2 pos1 ho1
      rcases h3 : relOtherGo st [p] (isRootAbsolute st base (getRoot st base))
        (jfuel [p]) osj1 B1 pos1 ho1 with ⟨C1, pos3, ho3⟩
      rcases h4 : relOtherGo st [p] (isRootAbsolute st base (getRoot st base))
        (jfuel [p]) osj1 B2 pos1 ho1 with ⟨C2, pos4, ho4⟩
      rw [h3, h4] at hsnd2
      simp only [Prod.mk.injEq] at hsnd2
      obtain ⟨hpos2, hho2⟩ := hsnd2
      subst hpos2; subst hho2
      simp only [h1, h2, h3, h4, outputCurrent, outputSized]
      split <;> rfl

/-- `get_relative` leaves a capacity-0 buffer empty. -/
theorem getRelative_nil (st : Style) (base p : Path) :
    (getRelative st base p []).1 = [] := by
  unfold getRelative
  dsimp only
  split
  · rfl
  rcases hb : getFirstSegmentJoined st [base] with ⟨_, bsj⟩
  rcases hoj : getFirstSegmentJoined st [p] with ⟨_, osj⟩
  rcases hd : skipDivergeGo st [base] [p]
      (isRootAbsolute st base (getRoot st base)) (jfuel [base] + jfuel [p])
      bsj osj with ⟨bsj1, osj1, ba, oa⟩
  simp only
  cases ba <;> simp only [Bool.false_eq_true, if_true, if_false]
  · cases oa <;> simp only [Bool.false_eq_true, if_true, if_false]
    · simp [outputCurrent, outputSized_nil, terminateOutput_nil]
    · have hnil := relOtherGo_nil st [p]
        (isRootAbsolute st base (getRoot st base)) (jfuel [p]) osj1 0 false
      rcases h1 : relOtherGo st [p] (isRootAbsolute st base (getRoot st base))
        (jfuel [p]) osj1 [] 0 false with ⟨B1, pos1, ho1⟩
      rw [h1] at hnil
      simp only at hnil
      subst hnil
      cases ho1 <;> simp [outputCurrent, outputSized_nil, terminateOutput_nil]
  · have hnil := relBaseGo_nil st [base]
      (isRootAbsolute st base (getRoot st base)) (jfuel [base]) bsj1 0 false
    rcases h1 : relBaseGo st [base] (isRootAbsolute st base (getRoot st base))
      (jfuel [base]) bsj1 [] 0 false with ⟨B1, pos1, ho1⟩
    rw [h1] at hnil
    simp only at hnil
    subst hnil
    cases oa <;> simp only [Bool.false_eq_true, if_true, if_false]
    · cases ho1 <;> simp [outputCurrent, outputSized_nil, terminateOutput_nil]
    · have hnil2 := relOtherGo_nil st [p]
        (isRootAbsolute st base (getRoot st base)) (jfuel [p]) osj1 pos1 ho1
      rcases h2 : relOtherGo st [p] (isRootAbsolute st base (getRoot st base))
        (jfuel [p]) osj1 [] pos1 ho1 with ⟨B2, pos2, ho2⟩
      rw [h2] at hnil2
      simp only at hnil2
      subst hnil2
      cases ho2 <;> simp [outputCurrent, outputSized_nil, terminateOutput_nil]

/-- `get_relative` satisfies the truncation contract. -/
theorem getRelative_termSafe (st : Style) (base p : Path) (buf : Buf) :
    TermSafe (getRelative st base p buf) buf.length := by
  unfold getRelative
  dsimp only
  split
  · exact termSafe_mk buf 0 _ rfl
  rcases hb : getFirstSegmentJoined st [base] with ⟨_, bsj⟩
  rcases hoj : getFirstSegmentJoined st [p] with ⟨_, osj⟩
  rcases hd : skipDivergeGo st [base] [p]
      (isRootAbsolute st base (getRoot st base)) (jfuel [base] + jfuel [p])
      bsj osj with ⟨bsj1, osj1, ba, oa⟩
  simp only
  cases ba <;> simp only [Bool.false_eq_true, if_true, if_false]
  · cases oa <;> simp only [Bool.false_eq_true, if_true, if_false]
    · exact termSafe_mk _ _ _ (outputSized_length buf 0 ['.'])
    · rcases h1 : relOtherGo st [p] (isRootAbsolute st base (getRoot st base))
        (jfuel [p]) osj1 buf 0 false with ⟨B1, pos1, ho1⟩
      have hlen : B1.length = buf.length := by
        have := relOtherGo_length st [p]
          (isRootAbsolute st base (getRoot st base)) (jfuel [p]) osj1 buf 0 false
        rw [h1] at this
        exact this
      cases ho1 <;> simp only [Bool.false_eq_true, if_true, if_false]
      · exact termSafe_mk _ _ _ ((outputSized_length B1 pos1 ['.']).trans hlen)
      · exact termSafe_mk _ _ _ hlen
  · rcases h1 : relBaseGo st [base] (isRootAbsolute st base (getRoot st base))
      (jfuel [base]) bsj1 buf 0 false with ⟨B1, pos1, ho1⟩
    have hlen : B1.length = buf.length := by
      have := relBaseGo_length st [base]
        (isRootAbsolute st base (getRoot st base)) (jfuel [base]) bsj1 buf 0 false
      rw [h1] at this
      exact this
    cases oa <;> simp only [Bool.false_eq_true, if_true, if_false]
    · cases ho1 <;> simp only [Bool.false_eq_true, if_true, if_false]
      · exact termSafe_mk _ _ _ ((outputSized_length B1 pos1 ['.']).trans hlen)
      · exact termSafe_mk _ _ _ hlen
    · rcases h2 : relOtherGo st [p] (isRootAbsolute st base (getRoot st base))
        (jfuel [p]) osj1 B1 pos1 ho1 with ⟨B2, pos2, ho2⟩
      have hlen2 : B2.length = buf.length := by
        have := relOtherGo_length st [p]
          (isRootAbsolute st base (getRoot st base)) (jfuel [p]) osj1 B1 pos1 ho1
        rw [h2] at this
        exact this.trans hlen
      cases ho2 <;> simp only [Bool.false_eq_true, if_true, if_false]
      · exact termSafe_mk _ _ _ ((outputSized_length B2 pos2 ['.']).trans hlen2)
      · exact termSafe_mk _ _ _ hlen2

/-- The length returned by `change_root` does not depend on the buffer, and
a capacity-0 buffer stays empty. -/
theorem changeRoot_snd_nil (st : Style) (p r : Path) (buf buf' : Buf) :
    (changeRoot st p r buf).2 = (changeRoot st p r buf').2 ∧
      (changeRoot st p r []).1 = [] := by
  constructor
  · rfl
  · simp [changeRoot, outputSized_nil, terminateOutput_nil]

/-- `change_root` satisfies the truncation contract. -/
theorem changeRoot_termSafe (st : Style) (p r : Path) (buf : Buf) :
    TermSafe (changeRoot st p r buf) buf.length := by
  unfold changeRoot
  dsimp only
  exact termSafe_mk _ _ _ (by simp [outputSized_length])

/-- The length returned by `change_segment` does not depend on the buffer,
and a capacity-0 buffer stays empty. -/
theorem changeSegment_snd_nil (st : Style) (p : Path) (s : Seg) (v : Path)
    (buf buf' : Buf) :
    (changeSegment st p s v buf).2 = (changeSegment st p s v buf').2 ∧
      (changeSegment st p s v []).1 = [] := by
  constructor
  · rfl
  · simp [changeSegment, outputSized_nil, terminateOutput_nil]

/-- `change_segment` satisfies the truncation contract. -/
theorem changeSegment_termSafe (st : Style) (p : Path) (s : Seg) (v : Path)
    (buf : Buf) :
    TermSafe (changeSegment st p s v buf) buf.length := by
  unfold changeSegment
  dsimp only
  exact termSafe_mk _ _ _ (by simp [outputSized_length])

/-- The length returned by `change_basename` does not depend on the buffer,
and a capacity-0 buffer stays empty. -/
theorem changeBasename_snd_nil (st : Style) (p nb : Path) (buf buf' : Buf) :
    (changeBasename st p nb buf).2 = (changeBasename st p nb buf').2 ∧
      (changeBasename st p nb []).1 = [] := by
  unfold changeBasename
  rcases hl : getLastSegment st p with ⟨bl, s⟩
  cases bl <;> simp only [hl]
  · exact ⟨rfl, by simp [outputSized_nil, terminateOutput_nil]⟩
  · exact ⟨(changeSegment_snd_nil st p s nb buf buf').1,
      (changeSegment_snd_nil st p s nb buf buf').2⟩

/-- `change_basename` satisfies the truncation contract. -/
theorem changeBasename_termSafe (st : Style) (p nb : Path) (buf : Buf) :
    TermSafe (changeBasename st p nb buf) buf.length := by
  unfold changeBasename
  rcases hl : getLastSegment st p with ⟨bl, s⟩
  cases bl <;> simp only [hl]
  · exact termSafe_mk _ _ _ (by simp [outputSized_length])
  · exact changeSegment_termSafe st p s nb buf

set_option maxHeartbeats 1000000 in
/-- The length returned by `change_extension` does not depend on the
buffer, and a capacity-0 buffer stays empty. -/
theorem changeExtension_snd_nil (st : Style) (p ne : Path) (buf buf' : Buf) :
    (changeExtension st p ne buf).2 = (changeExtension st p ne buf').2 ∧
      (changeExtension st p ne []).1 = [] := by
  unfold changeExtension
  rcases hl : getLastSegment st p with ⟨bl, s⟩
  cases bl <;> simp only [hl]
  · constructor
    · simp only [apply_ite, outputDot, outputSized_snd]
    · simp only [apply_ite, outputDot, outputSized_nil, terminateOutput_nil]
      simp [outputSized_nil, terminateOutput_nil, apply_ite]
  · constructor
    · rfl
    · simp [outputDot, outputSized_nil, terminateOutput_nil]

set_option maxHeartbeats 1000000 in
/-- `change_extension` satisfies the truncation contract. -/
theorem changeExtension_termSafe (st : Style) (p ne : Path) (buf : Buf) :
    TermSafe (changeExtension st p ne buf) buf.length := by
  unfold changeExtension
  rcases hl : getLastSegment st p with ⟨bl, s⟩
  cases bl <;> simp only [hl]
  · exact termSafe_mk _ _ _
      (by simp [apply_ite, outputDot, outputSized_length])
  · exact termSafe_mk _ _ _ (by simp [outputDot, outputSized_length])

/-- C6: every buffer-producing operation (join, join_multiple, normalize,
get_absolute, get_relative, change_root, change_basename, change_extension,
change_segment) returns a length that does not depend on the buffer
capacity — in particular a capacity-0 call returns the unbounded length —
and a capacity-0 call writes nothing (the empty buffer comes back
unchanged). -/
theorem claim6_measure_then_allocate (st : Style) (a b base p r nb ne v : Path)
    (ps : List Path) (sg : Seg) (buf : Buf) :
    ((join st a b buf).2 = (join st a b []).2 ∧ (join st a b []).1 = []) ∧
    ((joinMultiple st ps buf).2 = (joinMultiple st ps []).2 ∧
      (joinMultiple st ps []).1 = []) ∧
    ((normalize st p buf).2 = (normalize st p []).2 ∧
      (normalize st p []).1 = []) ∧
    ((getAbsolute st base p buf).2 = (getAbsolute st base p []).2 ∧
      (getAbsolute st base p []).1 = []) ∧
    ((getRelative st base p buf).2 = (getRelative st base p []).2 ∧
      (getRelative st base p []).1 = []) ∧
    ((changeRoot st p r buf).2 = (changeRoot st p r []).2 ∧
      (changeRoot st p r []).1 = []) ∧
    ((changeBasename st p nb buf).2 = (changeBasename st p nb []).2 ∧
      (changeBasename st p nb []).1 = []) ∧
    ((changeExtension st p ne buf).2 = (changeExtension st p ne []).2 ∧
      (changeExtension st p ne []).1 = []) ∧
    ((changeSegment st p sg v buf).2 = (changeSegment st p sg v []).2 ∧
      (changeSegment st p sg v []).1 = []) := by
  exact ⟨⟨janm_snd st [a, b] buf [], janm_nil st [a, b]⟩,
    ⟨janm_snd st ps buf [], janm_nil st ps⟩,
    ⟨janm_snd st [p] buf [], janm_nil st [p]⟩,
    ⟨janm_snd st _ buf [], janm_nil st _⟩,
    ⟨getRelative_snd st base p buf [], getRelative_nil st base p⟩,
    changeRoot_snd_nil st p r buf [],
    changeBasename_snd_nil st p nb buf [],
    changeExtension_snd_nil st p ne buf [],
    changeSegment_snd_nil st p sg v buf []⟩

/-- C7: every buffer-producing operation, called with a buffer of positive
capacity, preserves the buffer capacity (no byte beyond it is ever
written) and leaves the NUL terminator at index `min length (capacity -
1)` — in particular a truncated result ends with the terminator at the
last writable position. -/
theorem claim7_truncation_safety (st : Style) (a b base p r nb ne v : Path)
    (ps : List Path) (sg : Seg) (buf : Buf) (hcap : 0 < buf.length) :
    ((join st a b buf).1.length = buf.length ∧
      (join st a b buf).1[min (join st a b buf).2 (buf.length - 1)]? =
        some nulChar) ∧
    ((joinMultiple st ps buf).1.length = buf.length ∧
      (joinMultiple st ps buf).1[min (joinMultiple st ps buf).2
        (buf.length - 1)]? = some nulChar) ∧
    ((normalize st p buf).1.length = buf.length ∧
      (normalize st p buf).1[min (normalize st p buf).2 (buf.length - 1)]? =
        some nulChar) ∧
    ((getAbsolute st base p buf).1.length = buf.length ∧
      (getAbsolute st base p buf).1[min (getAbsolute st base p buf).2
        (buf.length - 1)]? = some nulChar) ∧
    ((getRelative st base p buf).1.length = buf.length ∧
      (getRelative st base p buf).1[min (getRelative st base p buf).2
        (buf.length - 1)]? = some nulChar) ∧
    ((changeRoot st p r buf).1.length = buf.length ∧
      (changeRoot st p r buf).1[min (changeRoot st p r buf).2
        (buf.length - 1)]? = some nulChar) ∧
    ((changeBasename st p nb buf).1.length = buf.length ∧
      (changeBasename st p nb buf).1[min (changeBasename st p nb buf).2
        (buf.length - 1)]? = some nulChar) ∧
    ((changeExtension st p ne buf).1.length = buf.length ∧
      (changeExtension st p ne buf).1[min (changeExtension st p ne buf).2
        (buf.length - 1)]? = some nulChar) ∧
    ((changeSegment st p sg v buf).1.length = buf.length ∧
      (changeSegment st p sg v buf).1[min (changeSegment st p sg v buf).2
        (buf.length - 1)]? = some nulChar) := by
  exact ⟨⟨(janm_termSafe st [a, b] buf).1, (janm_termSafe st [a, b] buf).2 hcap⟩,
    ⟨(janm_termSafe st ps buf).1, (janm_termSafe st ps buf).2 hcap⟩,
    ⟨(janm_termSafe st [p] buf).1, (janm_termSafe st [p] buf).2 hcap⟩,
    ⟨(janm_termSafe st _ buf).1, (janm_termSafe st _ buf).2 hcap⟩,
    ⟨(getRelative_termSafe st base p buf).1,
      (getRelative_termSafe st base p buf).2 hcap⟩,
    ⟨(changeRoot_termSafe st p r buf).1, (changeRoot_termSafe st p r buf).2 hcap⟩,
    ⟨(changeBasename_termSafe st p nb buf).1,
      (changeBasename_termSafe st p nb buf).2 hcap⟩,
    ⟨(changeExtension_termSafe st p ne buf).1,
      (changeExtension_termSafe st p ne buf).2 hcap⟩,
    ⟨(changeSegment_termSafe st p sg v buf).1,
      (changeSegment_termSafe st p sg v buf).2 hcap⟩⟩

/-- Witness for C7: joining `"a"` and `"b"` into a 3-byte buffer keeps the
capacity and puts the terminator at position `min 3 2 = 2`. -/
theorem claim7_witness :
    (join Style.unix "a".data "b".data ['x', 'y', 'z']).1.length = 3 ∧
    (join Style.unix "a".data "b".data ['x', 'y', 'z']).1[
      min (join Style.unix "a".data "b".data ['x', 'y', 'z']).2 2]? =
        some nulChar := by
  have h := claim7_truncation_safety Style.unix "a".data "b".data "a".data
    "a".data "r".data "nb".data "ne".data "v".data ["a".data] ⟨0, 0, 0, 0⟩
    ['x', 'y', 'z'] (by decide)
  exact ⟨h.1.1, h.1.2⟩

/-- The back-segment loop agrees with the spec's look-behind counter walk
over the backward enumeration of the stream. -/
theorem sbwrGo_eq_spec (st : Style) (ps : List Path) :
    ∀ (k : Nat) (sj : SegJoined) (c : Int),
      sbwrGo st ps k sj c = specBackElided c (prevTypesGo st ps k sj) := by
  intro k
  induction k with
  | zero => intros; rfl
  | succ k ih =>
    intro sj c
    rw [sbwrGo, prevTypesGo]
    rcases hp : getPreviousSegmentJoined st ps sj with ⟨bp, sj'⟩
    cases bp <;> simp only
    · rfl
    · cases htype : getSegmentType (ps.getD sj'.idx []) sj'.seg <;>
        simp only [specBackElided, ih]

/-- The normal-segment loop agrees with the spec's look-ahead counter walk
over the forward enumeration of the stream. -/
theorem snwrGo_eq_spec (st : Style) (ps : List Path) :
    ∀ (k : Nat) (sj : SegJoined) (c : Int),
      snwrGo st ps k sj c = specNormalElided c (nextTypesGo st ps k sj) := by
  intro k
  induction k with
  | zero => intros; rfl
  | succ k ih =>
    intro sj c
    rw [snwrGo, nextTypesGo]
    rcases hp : getNextSegmentJoined st ps sj with ⟨bp, sj'⟩
    cases bp <;> simp only
    · rfl
    · cases htype : getSegmentType (ps.getD sj'.idx []) sj'.seg <;>
        simp only [specNormalElided, ih]

/-- C1: `segment_will_be_removed` decides elision exactly by the spec's
counter rules — a Current segment is always elided; a Back segment of an
absolute joined path is always elided; a Back segment of a relative joined
path is elided iff the look-behind counter walk over the segments before
it goes positive; a Normal segment is elided iff the look-ahead counter
walk over the segments after it goes negative. -/
theorem claim1_visibility_resolver (st : Style) (ps : List Path) (fuel : Nat)
    (sj : SegJoined) (absolute : Bool) :
    segmentWillBeRemoved st ps fuel sj absolute =
      match getSegmentType (ps.getD sj.idx []) sj.seg with
      | .current => true
      | .back => absolute || specBackElided 0 (prevTypesGo st ps fuel sj)
      | .normal => specNormalElided 0 (nextTypesGo st ps fuel sj) := by
  unfold segmentWillBeRemoved
  cases htype : getSegmentType (ps.getD sj.idx []) sj.seg <;> simp only
  · exact snwrGo_eq_spec st ps fuel sj 0
  · cases absolute <;> simp only [Bool.false_or, Bool.true_or, if_true, if_false]
    exact sbwrGo_eq_spec st ps fuel sj 0

/-- Past the end of the path there is no separator (the NUL byte is not a
separator). -/
theorem isSepAt_of_ge_length (st : Style) (p : Path) (i : Nat)
    (h : p.length ≤ i) : isSepAt st p i = false := by
  have hc : charAt p i = nulChar := by
    unfold charAt
    rw [List.getD_eq_default]
    omega
  rw [isSepAt, hc]
  cases st <;> decide

/-- Characterization of the separator-skipping scan. -/
theorem skipSepsGo_spec (st : Style) (p : Path) :
    ∀ (k i : Nat),
      i ≤ skipSepsGo st p k i ∧ skipSepsGo st p k i ≤ i + k ∧
      (∀ j, i ≤ j → j < skipSepsGo st p k i → isSepAt st p j = true) ∧
      (isSepAt st p (skipSepsGo st p k i) = false ∨ skipSepsGo st p k i = i + k) := by
  intro k
  induction k with
  | zero =>
    intro i
    simp only [skipSepsGo]
    exact ⟨le_refl i, by omega, fun j h1 h2 => by omega, Or.inr (by omega)⟩
  | succ k ih =>
    intro i
    rw [skipSepsGo]
    by_cases hsep : isSepAt st p i = true
    · rw [if_pos hsep]
      obtain ⟨ih1, ih2, ih3, ih4⟩ := ih (i + 1)
      refine ⟨by omega, by omega, fun j h1 h2 => ?_, ?_⟩
      · rcases Nat.eq_or_lt_of_le h1 with h | h
        · rwa [← h]
        · exact ih3 j h h2
      · rcases ih4 with h | h
        · exact Or.inl h
        · exact Or.inr (by omega)
    · rw [if_neg hsep]
      exact ⟨le_refl i, by omega, fun j h1 h2 => by omega,
        Or.inl (by simpa using hsep)⟩

/-- Characterization of `skipSeps`: the result is at or after `i`,
everything strictly before it (from `i`) is a separator, and the result
itself is not on a separator. -/
theorem skipSeps_spec (st : Style) (p : Path) (i : Nat) :
    i ≤ skipSeps st p i ∧
    (∀ j, i ≤ j → j < skipSeps st p i → isSepAt st p j = true) ∧
    isSepAt st p (skipSeps st p i) = false := by
  obtain ⟨h1, h2, h3, h4⟩ := skipSepsGo_spec st p (p.length - i) i
  rw [skipSeps]
  refine ⟨h1, h3, ?_⟩
  rcases h4 with h | h
  · exact h
  · rw [h]
    by_cases hle : i ≤ p.length
    · exact isSepAt_of_ge_length st p _ (by omega)
    · exact isSepAt_of_ge_length st p _ (by omega)

/-- Characterization of the `find_next_stop` scan. -/
theorem findNextStopGo_spec (st : Style) (p : Path) :
    ∀ (k i : Nat),
      i ≤ findNextStopGo st p k i ∧ findNextStopGo st p k i ≤ i + k ∧
      (∀ j, i ≤ j → j < findNextStopGo st p k i →
        charAt p j ≠ nulChar ∧ isSepAt st p j = false) ∧
      (charAt p (findNextStopGo st p k i) = nulChar ∨
        isSepAt st p (findNextStopGo st p k i) = true ∨
        findNextStopGo st p k i = i + k) := by
  intro k
  induction k with
  | zero =>
    intro i
    simp only [findNextStopGo]
    exact ⟨le_refl i, by omega, fun j h1 h2 => by omega,
      Or.inr (Or.inr (by omega))⟩
  | succ k ih =>
    intro i
    rw [findNextStopGo]
    by_cases hgo : charAt p i ≠ nulChar ∧ ¬ isSepAt st p i = true
    · rw [if_pos hgo]
      obtain ⟨ih1, ih2, ih3, ih4⟩ := ih (i + 1)
      refine ⟨by omega, by omega, fun j h1 h2 => ?_, ?_⟩
      · rcases Nat.eq_or_lt_of_le h1 with h | h
        · subst h
          exact ⟨hgo.1, by simpa using hgo.2⟩
        · exact ih3 j h h2
      · rcases ih4 with h | h | h
        · exact Or.inl h
        · exact Or.inr (Or.inl h)
        · exact Or.inr (Or.inr (by omega))
    · rw [if_neg hgo]
      rcases not_and_or.mp hgo with h | h
      · exact ⟨le_refl i, by omega, fun j h1 h2 => by omega,
          Or.inl (not_not.mp h)⟩
      · exact ⟨le_refl i, by omega, fun j h1 h2 => by omega,
          Or.inr (Or.inl (by simpa using not_not.mp h))⟩

/-- Characterization of `find_next_stop`: everything from `i` up to the
stop is ordinary segment text, and the stop is the NUL or a separator. -/
theorem findNextStop_spec (st : Style) (p : Path) (i : Nat) :
    i ≤ findNextStop st p i ∧
    (∀ j, i ≤ j → j < findNextStop st p i →
      charAt p j ≠ nulChar ∧ isSepAt st p j = false) ∧
    (charAt p (findNextStop st p i) = nulChar ∨
      isSepAt st p (findNextStop st p i) = true) := by
  obtain ⟨h1, h2, h3, h4⟩ := findNextStopGo_spec st p (p.length - i) i
  rw [findNextStop]
  refine ⟨h1, h3, ?_⟩
  rcases h4 with h | h | h
  · exact Or.inl h
  · exact Or.inr h
  · left
    rw [h]
    unfold charAt
    rw [List.getD_eq_default]
    by_cases hle : i ≤ p.length <;> omega

/-- The backward scan stops at the first non-separator below the start,
when there is one above `segStart`. -/
theorem prevScanGo_some (st : Style) (p : Path) (segStart : Nat) :
    ∀ (k c m : Nat), k = c - segStart → segStart ≤ m → m < c →
      isSepAt st p m = false →
      (∀ j, m < j → j < c → isSepAt st p j = true) →
      prevScanGo st p segStart k c = some m := by
  intro k
  induction k with
  | zero => intro c m hk h1 h2 _ _; omega
  | succ k ih =>
    intro c m hk h1 h2 h3 h4
    rw [prevScanGo]
    rw [if_neg (by omega)]
    dsimp only
    rcases Nat.eq_or_lt_of_le (Nat.succ_le_of_lt h2) with h | h
    · -- c - 1 = m
      have hc1 : c - 1 = m := by omega
      rw [hc1, h3]
      simp
    · -- m < c - 1
      rw [h4 (c - 1) (by omega) (by omega)]
      simp only [if_true]
      exact ih (c - 1) m (by omega) h1 (by omega) h3
        (fun j hj1 hj2 => h4 j hj1 (by omega))

/-- The backward scan fails when everything from `segStart` below the
start is a separator. -/
theorem prevScanGo_none (st : Style) (p : Path) (segStart : Nat) :
    ∀ (k c : Nat), k = c - segStart →
      (∀ j, segStart ≤ j → j < c → isSepAt st p j = true) →
      prevScanGo st p segStart k c = none := by
  intro k
  induction k with
  | zero => intro c hk h; rfl
  | succ k ih =>
    intro c hk h
    rw [prevScanGo]
    rw [if_neg (by omega)]
    dsimp only
    rw [h (c - 1) (by omega) (by omega)]
    simp only [if_true]
    exact ih (c - 1) (by omega) (fun j hj1 hj2 => h j hj1 (by omega))

/-- The backward stop walk does not move off a separator. -/
theorem findPrevStopGo_stop (st : Style) (p : Path) (segStart k c : Nat)
    (h : isSepAt st p c = true) :
    findPrevStopGo st p segStart k c = c := by
  cases k with
  | zero => rfl
  | succ k => rw [findPrevStopGo, if_neg (by simp [h])]

/-- The `find_previous_stop` walk lands just before the beginning of a
segment whose text runs from `b` through `c`, when `b` is preceded by a
separator or is the segment area start. -/
theorem findPrevStopGo_spec (st : Style) (p : Path) (segStart b : Nat)
    (hb : segStart ≤ b) (hprev : b = segStart ∨ isSepAt st p (b - 1) = true) :
    ∀ (k c : Nat), k = c - segStart → b ≤ c →
      (∀ j, b ≤ j → j ≤ c → isSepAt st p j = false) →
      findPrevStopGo st p segStart k c =
        (if segStart < b then b - 1 else segStart) := by
  intro k
  induction k with
  | zero =>
    intro c hk hbc hns
    simp only [findPrevStopGo]
    rw [if_neg (show ¬ segStart < b by omega)]
    omega
  | succ k ih =>
    intro c hk hbc hns
    rcases Nat.eq_or_lt_of_le hbc with h | h
    · subst h
      by_cases hsb : segStart < b
      · rw [findPrevStopGo, if_pos ⟨hsb, by simp [hns b le_rfl le_rfl]⟩]
        rcases hprev with hpe | hpe
        · omega
        · rw [findPrevStopGo_stop st p segStart k (b - 1) hpe, if_pos hsb]
      · rw [findPrevStopGo, if_neg (by omega), if_neg hsb]
        omega
    · rw [findPrevStopGo, if_pos ⟨by omega, by simp [hns c (by omega) le_rfl]⟩]
      exact ih (c - 1) (by omega) (by omega)
        (fun j hj1 hj2 => hns j hj1 (by omega))

/-- The skipped prefix of `get_first_segment_without_root` is all
separators. -/
theorem firstSegScanGo_spec (st : Style) (p : Path) :
    ∀ (k i b : Nat), firstSegScanGo st p k i = some b →
      i ≤ b ∧ (∀ j, i ≤ j → j < b → isSepAt st p j = true) := by
  intro k
  induction k with
  | zero =>
    intro i b h
    rw [firstSegScanGo] at h
    injection h with h
    subst h
    exact ⟨le_refl _, fun j h1 h2 => by omega⟩
  | succ k ih =>
    intro i b h
    rw [firstSegScanGo] at h
    by_cases hsep : isSepAt st p i = true
    · rw [if_pos hsep] at h
      by_cases hnul : charAt p (i + 1) = nulChar
      · rw [if_pos hnul] at h
        cases h
      · rw [if_neg hnul] at h
        obtain ⟨h1, h2⟩ := ih (i + 1) b h
        refine ⟨by omega, fun j hj1 hj2 => ?_⟩
        rcases Nat.eq_or_lt_of_le hj1 with hj | hj
        · rwa [← hj]
        · exact h2 j hj hj2
    · rw [if_neg hsep] at h
      injection h with h
      subst h
      exact ⟨le_refl _, fun j h1 h2 => by omega⟩

/-- Reading a character that is not the NUL means reading inside the
string. -/
theorem lt_length_of_charAt_ne_nul (p : Path) (i : Nat)
    (h : charAt p i ≠ nulChar) : i < p.length := by
  by_contra hge
  exact h (by unfold charAt; rw [List.getD_eq_default]; omega)

/-- After stepping forward from a valid segment, stepping backward
restores it. -/
theorem nextSeg_restores (st : Style) (p : Path) :
    ∀ s s', ValidSeg st p s → getNextSegment st p s = (true, s') →
      getPreviousSegment st p s' = (true, s) := by
  rintro ⟨ss, sb, se, sz⟩ s' hv hn
  obtain ⟨h1, h2, h3, h4, h5, h6, h7⟩ := hv
  simp only at h1 h2 h3 h4 h5 h6 h7
  unfold getNextSegment at hn
  dsimp only at hn
  rw [← h3] at hn
  by_cases hc : charAt p se = nulChar
  · rw [if_pos hc] at hn
    simp at hn
  rw [if_neg hc] at hn
  have hsepE : isSepAt st p se = true := by
    rcases h7 with h | h
    · exact absurd (by unfold charAt; rw [h, List.getD_eq_default]; omega) hc
    · exact h
  obtain ⟨hsk1, hsk2, hsk3⟩ := skipSeps_spec st p (se + 1)
  by_cases hcn : charAt p (skipSeps st p (se + 1)) = nulChar
  · rw [if_pos hcn] at hn
    simp at hn
  rw [if_neg hcn] at hn
  simp only [Prod.mk.injEq, true_and] at hn
  subst hn
  unfold getPreviousSegment
  dsimp only
  rw [if_neg (by omega)]
  rw [prevScanGo_some st p ss (skipSeps st p (se + 1) - ss)
    (skipSeps st p (se + 1)) (se - 1) rfl (by omega) (by omega)
    (h5 (se - 1) (by omega) (by omega))
    (by
      intro j hj1 hj2
      rcases Nat.eq_or_lt_of_le (show se ≤ j by omega) with h | h
      · rwa [← h]
      · exact hsk2 j (by omega) hj2)]
  dsimp only
  unfold findPreviousStop
  rw [findPrevStopGo_spec st p ss sb h1 h6 (se - 1 - ss) (se - 1) rfl
    (by omega) (fun j hj1 hj2 => h5 j (by omega) hj1)]
  by_cases hsb : ss < sb
  · rw [if_pos hsb]
    have hsepb : isSepAt st p (sb - 1) = true := by
      rcases h6 with h | h
      · omega
      · exact h
    rw [if_pos hsepb]
    simp only [Prod.mk.injEq, Seg.mk.injEq, true_and]
    omega
  · rw [if_neg hsb]
    have hbss : sb = ss := by omega
    rw [if_neg (by rw [← hbss]; simp [h5 sb h2 le_rfl])]
    simp only [Prod.mk.injEq, Seg.mk.injEq, true_and]
    omega

/-- Stepping backward from the first segment of a path fails and leaves
the segment untouched. -/
theorem prevSeg_first_none (st : Style) (p : Path) :
    ∀ s0, getFirstSegment st p = (true, s0) →
      getPreviousSegment st p s0 = (false, s0) := by
  intro s0 h0
  unfold getFirstSegment getFirstSegmentWithoutRoot at h0
  dsimp only at h0
  by_cases hc : charAt p (getRoot st p) = nulChar
  · rw [if_pos hc] at h0
    simp at h0
  rw [if_neg hc] at h0
  rcases hscan : firstSegScanGo st p (p.length - getRoot st p) (getRoot st p)
    with _ | b0
  · rw [hscan] at h0
    simp at h0
  rw [hscan] at h0
  dsimp only at h0
  simp only [Prod.mk.injEq, true_and] at h0
  subst h0
  obtain ⟨hb1, hb2⟩ :=
    firstSegScanGo_spec st p (p.length - getRoot st p) (getRoot st p) b0 hscan
  unfold getPreviousSegment
  dsimp only
  by_cases hble : b0 ≤ getRoot st p
  · rw [if_pos hble]
  · rw [if_neg hble]
    rw [prevScanGo_none st p (getRoot st p) (b0 - getRoot st p) b0 rfl hb2]

/-- C9: the segment iterator round trip.  If a valid segment `s` yields a
next segment `s'` through `get_next_segment`, then `get_previous_segment`
applied to `s'` succeeds and restores exactly `s` (same begin, end and
size); and `get_previous_segment` applied to the first segment of a path
returns false without modifying the segment structure. -/
theorem claim9_iterator_round_trip (st : Style) (p : Path) :
    (∀ s s', ValidSeg st p s → getNextSegment st p s = (true, s') →
      getPreviousSegment st p s' = (true, s)) ∧
    (∀ s0, getFirstSegment st p = (true, s0) →
      getPreviousSegment st p s0 = (false, s0)) :=
  ⟨nextSeg_restores st p, prevSeg_first_none st p⟩

/-- Witness for C9: on the Unix path `"ab/cd"`, stepping from the first
segment to the second and back restores the first segment, and stepping
back from the first segment fails. -/
theorem claim9_witness :
    ValidSeg .unix "ab/cd".data ⟨0, 0, 2, 2⟩ ∧
    getNextSegment .unix "ab/cd".data ⟨0, 0, 2, 2⟩ = (true, ⟨0, 3, 5, 2⟩) ∧
    getPreviousSegment .unix "ab/cd".data ⟨0, 3, 5, 2⟩ = (true, ⟨0, 0, 2, 2⟩) ∧
    getFirstSegment .unix "ab/cd".data = (true, ⟨0, 0, 2, 2⟩) ∧
    getPreviousSegment .unix "ab/cd".data ⟨0, 0, 2, 2⟩ = (false, ⟨0, 0, 2, 2⟩) := by
  refine ⟨by decide, by decide, ?_, by decide, ?_⟩
  · exact (claim9_iterator_round_trip .unix "ab/cd".data).1 ⟨0, 0, 2, 2⟩
      ⟨0, 3, 5, 2⟩ (by decide) (by decide)
  · exact (claim9_iterator_round_trip .unix "ab/cd".data).2 ⟨0, 0, 2, 2⟩
      (by decide)

/-- C10, counterexample: the Windows path `"\\s\f\a"` is absolute and is
its own normalization, and its first two characters are both separators —
so the output of `normalize` on an absolute path can contain two
consecutive separators (inside a UNC root). -/
theorem claim10_counterexample :
    isAbsolute .windows "\\\\s\\f\\a".data = true ∧
    normalizeOut .windows "\\\\s\\f\\a".data = "\\\\s\\f\\a".data ∧
    noConsecutiveSeps .windows (normalizeOut .windows "\\\\s\\f\\a".data) =
      false := by
  decide

/-- Reading strictly inside the string yields a character of the string. -/
theorem charAt_mem (p : Path) (i : Nat) (h : i < p.length) : charAt p i ∈ p := by
  unfold charAt
  rw [List.getD_eq_getElem p nulChar h]
  exact p.getElem_mem h

/-- For NUL-free strings, reading the NUL means reading past the end. -/
theorem charAt_eq_nul_iff (p : Path) (hnf : NulFree p) (i : Nat) :
    charAt p i = nulChar ↔ p.length ≤ i := by
  constructor
  · intro h
    by_contra hlt
    exact hnf (charAt p i) (charAt_mem p i (by omega)) h
  · intro h
    unfold charAt
    rw [List.getD_eq_default]
    omega

/-- `strncmp` equality on NUL-free strings is prefix equality. -/
theorem strncmpEq_eq_take :
    ∀ (n : Nat) (xs pat : List Char), NulFree xs → NulFree pat →
      strncmpEq xs pat n = decide (xs.take n = pat.take n)
  | 0, xs, pat, _, _ => by simp [strncmpEq]
  | n + 1, [], [], _, _ => by simp [strncmpEq]
  | n + 1, [], b :: bs, _, hp => by
    have hb : nulChar ≠ b := fun h => hp b (by simp) h.symm
    simp [strncmpEq, hb]
  | n + 1, a :: as, [], ha, _ => by
    have ha' : a ≠ nulChar := ha a (by simp)
    simp [strncmpEq, ha']
  | n + 1, a :: as, b :: bs, ha, hp => by
    have hb : a ≠ nulChar := ha a (by simp)
    rw [strncmpEq]
    simp only [hb, false_or, decide_eq_true_eq]
    rw [strncmpEq_eq_take n as bs (fun c hc => ha c (by simp [hc]))
      (fun c hc => hp c (by simp [hc]))]
    by_cases hab : a = b <;> simp [hab, List.take]

/-- For a nonempty in-bounds segment of a NUL-free path, the segment type
is determined by the segment text. -/
theorem getSegmentType_eq_typeOfText (p : Path) (s : Seg) (hnf : NulFree p)
    (hsz : 0 < s.size) (he : s.b + s.size ≤ p.length) :
    getSegmentType p s = typeOfText (segSlice p s) := by
  have hdnf : NulFree (p.drop s.b) := fun c hc => hnf c (List.mem_of_mem_drop hc)
  unfold getSegmentType typeOfText segSlice
  dsimp only
  rw [strncmpEq_eq_take s.size (p.drop s.b) ['.'] hdnf (by decide),
    strncmpEq_eq_take s.size (p.drop s.b) ['.', '.'] hdnf (by decide)]
  have hdl : (p.drop s.b).length = p.length - s.b := by simp
  rcases hsize : s.size with _ | _ | n
  · omega
  · have h1 : (['.', '.'] : List Char).take 1 = ['.'] := rfl
    have h2 : (['.'] : List Char).take 1 = ['.'] := rfl
    rw [h1, h2]
    have hne2 : List.take 1 (p.drop s.b) ≠ ['.', '.'] := by
      intro hcon
      have hle := List.length_take_le 1 (List.drop s.b p)
      rw [hcon] at hle
      simp at hle
    by_cases hq : List.take 1 (p.drop s.b) = ['.'] <;> simp [hq, hne2]
  · rw [hsize] at he
    have h1 : (['.', '.'] : List Char).take (n + 2) = ['.', '.'] := by simp
    have h2 : (['.'] : List Char).take (n + 2) = ['.'] := by simp
    rw [h1, h2]
    have hne1 : List.take (n + 2) (p.drop s.b) ≠ ['.'] := by
      intro hcon
      have hlc := congrArg List.length hcon
      rw [List.length_take_of_le (by rw [hdl]; omega)] at hlc
      simp at hlc
    by_cases hq2 : List.take (n + 2) (p.drop s.b) = ['.', '.'] <;>
      simp [hne1, hq2]

/-- Unpacking a successful `get_next_segment` step. -/
theorem next_parts (st : Style) (p : Path) (s s' : Seg)
    (h : getNextSegment st p s = (true, s')) :
    s' = ⟨s.segStart, skipSeps st p (s.b + s.size + 1),
      findNextStop st p (skipSeps st p (s.b + s.size + 1)),
      findNextStop st p (skipSeps st p (s.b + s.size + 1)) -
        skipSeps st p (s.b + s.size + 1)⟩ ∧
    charAt p (s.b + s.size) ≠ nulChar ∧
    charAt p (skipSeps st p (s.b + s.size + 1)) ≠ nulChar := by
  unfold getNextSegment at h
  dsimp only at h
  by_cases hc : charAt p (s.b + s.size) = nulChar
  · rw [if_pos hc] at h
    simp at h
  rw [if_neg hc] at h
  by_cases hcn : charAt p (skipSeps st p (s.b + s.size + 1)) = nulChar
  · rw [if_pos hcn] at h
    simp at h
  rw [if_neg hcn] at h
  simp only [Prod.mk.injEq, true_and] at h
  exact ⟨h.symm, hc, hcn⟩

/-- A successful forward step moves the begin offset strictly forward and
stays inside the string, preserving the segment area start. -/
theorem next_progress (st : Style) (p : Path) (s s' : Seg)
    (h : getNextSegment st p s = (true, s')) :
    s.b + s.size < s'.b ∧ s'.b < p.length ∧ s'.segStart = s.segStart := by
  obtain ⟨hs', hc, hcn⟩ := next_parts st p s s' h
  obtain ⟨hsk1, -, -⟩ := skipSeps_spec st p (s.b + s.size + 1)
  subst hs'
  refine ⟨?_, ?_, rfl⟩
  · show s.b + s.size < skipSeps st p (s.b + s.size + 1)
    omega
  · exact lt_length_of_charAt_ne_nul p _ hcn

/-- Forward stepping fails at or beyond the end of the string. -/
theorem getNextSegment_none_of_ge (st : Style) (p : Path) (s : Seg)
    (h : p.length ≤ s.b) : getNextSegment st p s = (false, s) := by
  unfold getNextSegment
  dsimp only
  rw [if_pos (by unfold charAt; rw [List.getD_eq_default]; omega)]

/-- A successful forward step from a valid segment yields a valid
segment. -/
theorem next_valid (st : Style) (p : Path) (hnf : NulFree p) (s s' : Seg)
    (hv : ValidSeg st p s) (h : getNextSegment st p s = (true, s')) :
    ValidSeg st p s' := by
  obtain ⟨h1, h2, h3, h4, h5, h6, h7⟩ := hv
  obtain ⟨hs', hc, hcn⟩ := next_parts st p s s' h
  rw [← h3] at hs' hc hcn
  obtain ⟨hsk1, hsk2, hsk3⟩ := skipSeps_spec st p (s.e + 1)
  obtain ⟨hfn1, hfn2, hfn3⟩ := findNextStop_spec st p (skipSeps st p (s.e + 1))
  have hc1lt : skipSeps st p (s.e + 1) < p.length :=
    lt_length_of_charAt_ne_nul p _ hcn
  have hsepE : isSepAt st p s.e = true := by
    rcases h7 with hh | hh
    · exfalso
      apply hc
      unfold charAt
      rw [hh, List.getD_eq_default]
      omega
    · exact hh
  have hfngt : skipSeps st p (s.e + 1) < findNextStop st p (skipSeps st p (s.e + 1)) := by
    rcases Nat.eq_or_lt_of_le hfn1 with hh | hh
    · exfalso
      rcases hfn3 with hn | hn
      · rw [← hh] at hn
        exact hcn hn
      · rw [← hh] at hn
        rw [hsk3] at hn
        cases hn
    · exact hh
  have hfnle : findNextStop st p (skipSeps st p (s.e + 1)) ≤ p.length := by
    obtain ⟨-, hb2, -, -⟩ := findNextStopGo_spec st p
      (p.length - skipSeps st p (s.e + 1)) (skipSeps st p (s.e + 1))
    rw [findNextStop]
    omega
  subst hs'
  refine ⟨by dsimp only; omega, by dsimp only; omega, by dsimp only; omega,
    by dsimp only; omega, ?_, ?_, ?_⟩
  · intro i hi1 hi2
    exact (hfn2 i hi2 hi1).2
  · dsimp only
    rcases Nat.eq_or_lt_of_le hsk1 with hh | hh
    · right
      rw [← hh]
      simpa using hsepE
    · right
      exact hsk2 _ (by omega) (by omega)
  · dsimp only
    rcases hfn3 with hn | hn
    · left
      have := (charAt_eq_nul_iff p hnf _).mp hn
      omega
    · right
      exact hn

/-- The first-segment scan stops on a usable character (needs enough
fuel, as always available through the wrappers). -/
theorem firstSegScanGo_stop (st : Style) (p : Path) :
    ∀ (k i b : Nat), p.length - i ≤ k → charAt p i ≠ nulChar →
      firstSegScanGo st p k i = some b →
      isSepAt st p b = false ∧ charAt p b ≠ nulChar := by
  intro k
  induction k with
  | zero =>
    intro i b hk hc h
    exact absurd (lt_length_of_charAt_ne_nul p i hc) (by omega)
  | succ k ih =>
    intro i b hk hc h
    rw [firstSegScanGo] at h
    by_cases hsep : isSepAt st p i = true
    · rw [if_pos hsep] at h
      by_cases hnul : charAt p (i + 1) = nulChar
      · rw [if_pos hnul] at h
        cases h
      · rw [if_neg hnul] at h
        have hlt := lt_length_of_charAt_ne_nul p i hc
        exact ih (i + 1) b (by omega) hnul h
    · rw [if_neg hsep] at h
      injection h with h
      subst h
      exact ⟨by simpa using hsep, hc⟩

/-- The first segment of a NUL-free path is valid and starts right after
the root. -/
theorem first_valid (st : Style) (p : Path) (hnf : NulFree p) (s : Seg)
    (h : getFirstSegment st p = (true, s)) :
    ValidSeg st p s ∧ s.segStart = getRoot st p := by
  unfold getFirstSegment getFirstSegmentWithoutRoot at h
  dsimp only at h
  by_cases hc : charAt p (getRoot st p) = nulChar
  · rw [if_pos hc] at h
    simp at h
  rw [if_neg hc] at h
  rcases hscan : firstSegScanGo st p (p.length - getRoot st p) (getRoot st p)
    with _ | b0
  · rw [hscan] at h
    simp at h
  rw [hscan] at h
  dsimp only at h
  simp only [Prod.mk.injEq, true_and] at h
  obtain ⟨hb1, hb2⟩ :=
    firstSegScanGo_spec st p (p.length - getRoot st p) (getRoot st p) b0 hscan
  obtain ⟨hstop1, hstop2⟩ :=
    firstSegScanGo_stop st p (p.length - getRoot st p) (getRoot st p) b0
      (by omega) hc hscan
  obtain ⟨hfn1, hfn2, hfn3⟩ := findNextStop_spec st p b0
  have hb0lt : b0 < p.length := lt_length_of_charAt_ne_nul p _ hstop2
  have hfngt : b0 < findNextStop st p b0 := by
    rcases Nat.eq_or_lt_of_le hfn1 with hh | hh
    · exfalso
      rcases hfn3 with hn | hn
      · rw [← hh] at hn
        exact hstop2 hn
      · rw [← hh] at hn
        rw [hstop1] at hn
        cases hn
    · exact hh
  have hfnle : findNextStop st p b0 ≤ p.length := by
    obtain ⟨-, hx2, -, -⟩ := findNextStopGo_spec st p (p.length - b0) b0
    rw [findNextStop]
    omega
  subst h
  refine ⟨⟨by dsimp only; omega, by dsimp only; omega, by dsimp only; omega,
    by dsimp only; omega, ?_, ?_, ?_⟩, rfl⟩
  · intro i hi1 hi2
    exact (hfn2 i hi2 hi1).2
  · dsimp only
    rcases Nat.eq_or_lt_of_le hb1 with hh | hh
    · left
      omega
    · right
      exact hb2 _ (by omega) (by omega)
  · dsimp only
    rcases hfn3 with hn | hn
    · left
      have := (charAt_eq_nul_iff p hnf _).mp hn
      omega
    · right
      exact hn

/-- Collapse of the joined iterators over a single path: forward success. -/
theorem gnsj_singleton_true (st : Style) (q : Path) (s s' : Seg)
    (h : getNextSegment st q s = (true, s')) :
    getNextSegmentJoined st [q] ⟨s, 0⟩ = (true, ⟨s', 0⟩) := by
  unfold getNextSegmentJoined
  rw [if_neg (by simp)]
  dsimp only
  rw [show ([q] : List Path).getD 0 [] = q from rfl, h]

/-- Collapse of the joined iterators over a single path: forward
failure. -/
theorem gnsj_singleton_false (st : Style) (q : Path) (s s₁ : Seg)
    (h : getNextSegment st q s = (false, s₁)) :
    getNextSegmentJoined st [q] ⟨s, 0⟩ = (false, ⟨s, 1⟩) := by
  unfold getNextSegmentJoined
  rw [if_neg (by simp)]
  dsimp only
  rw [show ([q] : List Path).getD 0 [] = q from rfl, h]
  simp [gnsjGo]

/-- Collapse of the joined iterators over a single path: backward
success. -/
theorem gpsj_singleton_true (st : Style) (q : Path) (s s' : Seg)
    (h : getPreviousSegment st q s = (true, s')) :
    getPreviousSegmentJoined st [q] ⟨s, 0⟩ = (true, ⟨s', 0⟩) := by
  unfold getPreviousSegmentJoined
  rw [if_neg (by simp)]
  dsimp only
  rw [show ([q] : List Path).getD 0 [] = q from rfl, h]

/-- Collapse of the joined iterators over a single path: backward
failure. -/
theorem gpsj_singleton_false (st : Style) (q : Path) (s s₁ : Seg)
    (h : getPreviousSegment st q s = (false, s₁)) :
    getPreviousSegmentJoined st [q] ⟨s, 0⟩ = (false, ⟨s, 0⟩) := by
  unfold getPreviousSegmentJoined
  rw [if_neg (by simp)]
  dsimp only
  rw [show ([q] : List Path).getD 0 [] = q from rfl, h]
  rfl

/-- Collapse of `get_first_segment_joined` over a single path. -/
theorem gfsj_singleton (st : Style) (q : Path) :
    getFirstSegmentJoined st [q] =
      (if (getFirstSegment st q).1 then (true, ⟨(getFirstSegment st q).2, 0⟩)
       else (false, ⟨(getFirstSegment st q).2, 1⟩)) := by
  unfold getFirstSegmentJoined
  rw [show ([q] : List Path).length = 1 from rfl]
  rw [gfsjGo]
  rcases hf : getFirstSegment st ([q].getD 0 []) with ⟨bf, s⟩
  have hq : ([q] : List Path).getD 0 [] = q := rfl
  rw [hq] at hf
  rw [hf]
  cases bf <;> simp [hf, gfsjGo]

/-- The segment enumeration is insensitive to the iteration bound, as long
as the bound dominates the remaining string length. -/
theorem segsNextGo_congr (st : Style) (p : Path) :
    ∀ (k k' : Nat) (s : Seg), p.length - s.b ≤ k → p.length - s.b ≤ k' →
      segsNextGo st p k s = segsNextGo st p k' s := by
  intro k
  induction k with
  | zero =>
    intro k' s h h'
    cases k' with
    | zero => rfl
    | succ k' =>
      simp only [segsNextGo, getNextSegment_none_of_ge st p s (by omega)]
  | succ k ih =>
    intro k' s h h'
    cases k' with
    | zero =>
      simp only [segsNextGo, getNextSegment_none_of_ge st p s (by omega)]
    | succ k' =>
      rw [segsNextGo, segsNextGo]
      rcases hn : getNextSegment st p s with ⟨bn, s'⟩
      cases bn
      · rfl
      · dsimp only
        obtain ⟨hp1, hp2, -⟩ := next_progress st p s s' hn
        rw [ih k' s' (by omega) (by omega)]

/-- The look-behind walk never fires exactly when every prefix balance
stays at most zero (starting from a non-positive counter). -/
theorem specBackElided_false_iff :
    ∀ (ts : List SegType) (c : Int), c ≤ 0 →
      (specBackElided c ts = false ↔ ∀ k, c + bal (ts.take k) ≤ 0) := by
  intro ts
  induction ts with
  | nil =>
    intro c hc
    constructor
    · intro _ k
      simp [bal]
      omega
    · intro _
      rfl
  | cons t ts ih =>
    intro c hc
    cases t
    case normal =>
      by_cases hpos : c + 1 > 0
      · simp only [specBackElided, if_pos hpos]
        constructor
        · intro h
          exact absurd h (by simp)
        · intro h
          exfalso
          have h1 := h 1
          simp [bal, typeWeight] at h1
          omega
      · simp only [specBackElided, if_neg hpos]
        rw [ih (c + 1) (by omega)]
        constructor
        · intro h k
          cases k with
          | zero =>
            simp [bal]
            omega
          | succ k =>
            have hk := h k
            simp only [List.take_succ_cons, bal, typeWeight]
            omega
        · intro h k
          have hk := h (k + 1)
          simp only [List.take_succ_cons, bal, typeWeight] at hk
          omega
    case back =>
      simp only [specBackElided]
      rw [ih (c - 1) (by omega)]
      constructor
      · intro h k
        cases k with
        | zero =>
          simp [bal]
          omega
        | succ k =>
          have hk := h k
          simp only [List.take_succ_cons, bal, typeWeight]
          omega
      · intro h k
        have hk := h (k + 1)
        simp only [List.take_succ_cons, bal, typeWeight] at hk
        omega
    case current =>
      simp only [specBackElided]
      rw [ih c hc]
      constructor
      · intro h k
        cases k with
        | zero =>
          simp [bal]
          omega
        | succ k =>
          have hk := h k
          simp only [List.take_succ_cons, bal, typeWeight]
          omega
      · intro h k
        have hk := h (k + 1)
        simp only [List.take_succ_cons, bal, typeWeight] at hk
        omega

/-- The look-ahead walk never fires exactly when every prefix balance
stays at least zero (starting from a non-negative counter). -/
theorem specNormalElided_false_iff :
    ∀ (ts : List SegType) (c : Int), 0 ≤ c →
      (specNormalElided c ts = false ↔ ∀ k, 0 ≤ c + bal (ts.take k)) := by
  intro ts
  induction ts with
  | nil =>
    intro c hc
    constructor
    · intro _ k
      simp [bal]
      omega
    · intro _
      rfl
  | cons t ts ih =>
    intro c hc
    cases t
    case back =>
      by_cases hneg : c - 1 < 0
      · simp only [specNormalElided, if_pos hneg]
        constructor
        · intro h
          exact absurd h (by simp)
        · intro h
          exfalso
          have h1 := h 1
          simp [bal, typeWeight] at h1
          omega
      · simp only [specNormalElided, if_neg hneg]
        rw [ih (c - 1) (by omega)]
        constructor
        · intro h k
          cases k with
          | zero =>
            simp [bal]
            omega
          | succ k =>
            have hk := h k
            simp only [List.take_succ_cons, bal, typeWeight]
            omega
        · intro h k
          have hk := h (k + 1)
          simp only [List.take_succ_cons, bal, typeWeight] at hk
          omega
    case normal =>
      simp only [specNormalElided]
      rw [ih (c + 1) (by omega)]
      constructor
      · intro h k
        cases k with
        | zero =>
          simp [bal]
          omega
        | succ k =>
          have hk := h k
          simp only [List.take_succ_cons, bal, typeWeight]
          omega
      · intro h k
        have hk := h (k + 1)
        simp only [List.take_succ_cons, bal, typeWeight] at hk
        omega
    case current =>
      simp only [specNormalElided]
      rw [ih c hc]
      constructor
      · intro h k
        cases k with
        | zero =>
          simp [bal]
          omega
        | succ k =>
          have hk := h k
          simp only [List.take_succ_cons, bal, typeWeight]
          omega
      · intro h k
        have hk := h (k + 1)
        simp only [List.take_succ_cons, bal, typeWeight] at hk
        omega

/-- The balance is additive over concatenation. -/
theorem bal_append (l1 l2 : List SegType) :
    bal (l1 ++ l2) = bal l1 + bal l2 := by
  induction l1 with
  | nil => simp [bal]
  | cons t l1 ih => simp [bal, ih]; ring

/-- The balance is invariant under reversal. -/
theorem bal_reverse (l : List SegType) : bal l.reverse = bal l := by
  induction l with
  | nil => rfl
  | cons t l ih => simp [bal, List.reverse_cons, bal_append, ih]; ring

/-- `take` commutes with `map` over the type projection. -/
theorem take_map_types (f : Seg → SegType) (l : List Seg) (k : Nat) :
    (l.map f).take k = (l.take k).map f := (List.map_take f l k).symm

/-- A positive reachable balance makes the look-behind walk fire. -/
theorem specBackElided_true_of (ts : List SegType) (k : Nat)
    (h : 0 < bal (ts.take k)) : specBackElided 0 ts = true := by
  have hiff := specBackElided_false_iff ts 0 le_rfl
  rcases hb : specBackElided 0 ts with _ | _
  · exfalso
    have := (hiff.mp hb) k
    omega
  · rfl

/-- The look-behind walk never fires on a pure run of Back segments. -/
theorem specBackElided_replicate_back (m : Nat) :
    specBackElided 0 (List.replicate m .back) = false := by
  rw [specBackElided_false_iff _ 0 le_rfl]
  intro k
  have hb : ∀ n, bal (List.replicate n SegType.back) = -(n : Int) := by
    intro n
    induction n with
    | zero => rfl
    | succ n ih => simp [List.replicate_succ, bal, typeWeight, ih]
  rw [List.take_replicate, hb]
  omega

/-- The look-ahead walk never fires on a pure run of Normal segments. -/
theorem specNormalElided_all_normal (ts : List SegType)
    (h : ∀ t ∈ ts, t = .normal) : specNormalElided 0 ts = false := by
  rw [specNormalElided_false_iff ts 0 le_rfl]
  intro k
  have hb : ∀ l, (∀ t ∈ l, t = SegType.normal) → 0 ≤ bal l := by
    intro l
    induction l with
    | nil => intro _; simp [bal]
    | cons t l ih =>
      intro hl
      have ht := hl t (by simp)
      have := ih (fun u hu => hl u (by simp [hu]))
      simp [bal, ht, typeWeight]
      omega
  have := hb (ts.take k) (fun t ht => h t (List.mem_of_mem_take ht))
  omega

/-- Over a single path, the forward joined type enumeration is the type
list of the single-path segment enumeration. -/
theorem nextTypesGo_singleton (st : Style) (p : Path) :
    ∀ (k : Nat) (s : Seg), p.length - s.b ≤ k →
      nextTypesGo st [p] k ⟨s, 0⟩ =
        (segsNextGo st p k s).map (getSegmentType p) := by
  intro k
  induction k with
  | zero => intro s h; rfl
  | succ k ih =>
    intro s h
    rw [nextTypesGo, segsNextGo]
    rcases hn : getNextSegment st p s with ⟨bn, s'⟩
    cases bn
    · rw [gnsj_singleton_false st p s s' hn]
      rfl
    · rw [gnsj_singleton_true st p s s' hn]
      dsimp only
      obtain ⟨hp1, hp2, -⟩ := next_progress st p s s' hn
      rw [ih s' (by omega)]
      rfl

/-- Every station of a run over a NUL-free path is a valid segment. -/
theorem runTo_valid (st : Style) (p : Path) (hnf : NulFree p) :
    ∀ pre s, RunTo st p pre s → ValidSeg st p s := by
  intro pre s h
  induction h with
  | first s h => exact (first_valid st p hnf s h).1
  | step pre s s' h hn ih => exact next_valid st p hnf s s' ih hn

/-- The number of visited segments is bounded by the current begin
offset. -/
theorem runTo_len_le (st : Style) (p : Path) :
    ∀ pre s, RunTo st p pre s → pre.length ≤ s.b := by
  intro pre s h
  induction h with
  | first s h => exact Nat.zero_le _
  | step pre s s' h hn ih =>
    have := next_progress st p s s' hn
    simp only [List.length_append, List.length_singleton]
    omega

/-- Over a single path, the backward joined type enumeration from a run
station lists the types of the visited segments, most recent first. -/
theorem prevTypesGo_runTo (st : Style) (p : Path) (hnf : NulFree p) :
    ∀ pre s, RunTo st p pre s → ∀ k, pre.length < k →
      prevTypesGo st [p] k ⟨s, 0⟩ = (pre.map (getSegmentType p)).reverse := by
  intro pre s h
  induction h with
  | first s h =>
    intro k hk
    obtain ⟨k, rfl⟩ : ∃ k', k = k' + 1 := ⟨k - 1, by omega⟩
    rw [prevTypesGo]
    rw [gpsj_singleton_false st p s s (prevSeg_first_none st p s h)]
    rfl
  | step pre s s' h hn ih =>
    intro k hk
    obtain ⟨k, rfl⟩ : ∃ k', k = k' + 1 :=
      ⟨k - 1, by simp at hk; omega⟩
    rw [prevTypesGo]
    have hv : ValidSeg st p s := runTo_valid st p hnf pre s h
    rw [gpsj_singleton_true st p s' s (nextSeg_restores st p s s' hv hn)]
    dsimp only
    rw [ih k (by simp at hk; omega)]
    show getSegmentType p s :: (pre.map (getSegmentType p)).reverse = _
    simp [List.map_append]

/-- Over a single path, `segment_will_be_removed` at a run station decides
by the spec counter walks over the visited and the upcoming segment
types. -/
theorem segmentWillBeRemoved_singleton (st : Style) (p : Path)
    (hnf : NulFree p) (pre : List Seg) (s : Seg) (h : RunTo st p pre s)
    (absolute : Bool) :
    segmentWillBeRemoved st [p] (jfuel [p]) ⟨s, 0⟩ absolute =
      match getSegmentType p s with
      | .current => true
      | .back =>
          absolute || specBackElided 0 ((pre.map (getSegmentType p)).reverse)
      | .normal =>
          specNormalElided 0
            ((segsNextGo st p (p.length - s.b) s).map (getSegmentType p)) := by
  have hv : ValidSeg st p s := runTo_valid st p hnf pre s h
  obtain ⟨hv1, hv2, hv3, hv4, -, -, -⟩ := hv
  have hblt : s.b < p.length := by omega
  have hfuel : jfuel [p] = p.length + 2 := by simp [jfuel]
  have hlen : pre.length ≤ s.b := runTo_len_le st p pre s h
  unfold segmentWillBeRemoved
  show (match getSegmentType p s with
    | SegType.current => true
    | SegType.back =>
        if absolute then true else segmentBackWillBeRemoved st [p] (jfuel [p]) ⟨s, 0⟩
    | SegType.normal => segmentNormalWillBeRemoved st [p] (jfuel [p]) ⟨s, 0⟩) = _
  cases htype : getSegmentType p s <;> dsimp only
  case normal =>
    unfold segmentNormalWillBeRemoved
    rw [snwrGo_eq_spec st [p] (jfuel [p]) ⟨s, 0⟩ 0]
    rw [nextTypesGo_singleton st p (jfuel [p]) s (by omega)]
    rw [segsNextGo_congr st p (jfuel [p]) (p.length - s.b) s (by omega) le_rfl]
  case back =>
    cases absolute
    · unfold segmentBackWillBeRemoved
      rw [sbwrGo_eq_spec st [p] (jfuel [p]) ⟨s, 0⟩ 0]
      rw [prevTypesGo_runTo st p hnf pre s h (jfuel [p]) (by omega)]
      simp
    · simp

/-- The accumulator step of the elision pass matches appending a visited
segment to the run. -/
theorem revTypes_append (p : Path) (pre : List Seg) (s : Seg) :
    getSegmentType p s :: (pre.map (getSegmentType p)).reverse =
      ((pre ++ [s]).map (getSegmentType p)).reverse := by
  simp [List.map_append]

/-- Over a single path, the main loop of `join_and_normalize_multiple`
renders exactly the surviving segments. -/
theorem janmGo_eval (st : Style) (p : Path) (hnf : NulFree p)
    (absolute : Bool) :
    ∀ (fuel : Nat) (pre : List Seg) (s : Seg) (buf : Buf) (pos : Nat)
      (ho : Bool), RunTo st p pre s → p.length - s.b < fuel →
      janmGo st [p] absolute fuel ⟨s, 0⟩ buf pos ho =
        renderFrom st p
          (survivorsFrom p absolute ((pre.map (getSegmentType p)).reverse)
            (s :: segsNextGo st p (p.length - s.b) s)) buf pos ho := by
  intro fuel
  induction fuel with
  | zero =>
    intro pre s buf pos ho hrun hf
    omega
  | succ fuel ih =>
    intro pre s buf pos ho hrun hf
    have hv := runTo_valid st p hnf pre s hrun
    obtain ⟨hv1, hv2, hv3, hv4, -, -, -⟩ := hv
    obtain ⟨m, hm⟩ : ∃ m, p.length - s.b = m + 1 := ⟨p.length - s.b - 1, by omega⟩
    rcases hn : getNextSegment st p s with ⟨bn, s'⟩
    rw [janmGo]
    rw [survivorsFrom]
    dsimp only
    rcases hD : segmentWillBeRemoved st [p] (jfuel [p]) ⟨s, 0⟩ absolute with _ | _
    all_goals
      have hD' := (segmentWillBeRemoved_singleton st p hnf pre s hrun
        absolute).symm.trans hD
      rw [hD']
    · -- kept
      simp only [Bool.false_eq_true, if_false]
      cases bn
      · -- no further segment
        have hrest : segsNextGo st p (p.length - s.b) s = [] := by
          rw [hm, segsNextGo, hn]
        rw [gnsj_singleton_false st p s s' hn, hrest]
        rfl
      · -- recurse
        obtain ⟨hp1, hp2, -⟩ := next_progress st p s s' hn
        have hrest : segsNextGo st p (p.length - s.b) s =
            s' :: segsNextGo st p (p.length - s'.b) s' := by
          rw [hm, segsNextGo, hn]
          dsimp only
          rw [segsNextGo_congr st p m (p.length - s'.b) s' (by omega) le_rfl]
        rw [gnsj_singleton_true st p s s' hn, hrest]
        show janmGo st [p] absolute fuel ⟨s', 0⟩ _ _ _ = _
        rw [ih (pre ++ [s]) s' _ _ _ (RunTo.step pre s s' hrun hn) (by omega)]
        rw [← revTypes_append]
        rfl
    · -- removed: state unchanged
      simp only [if_true]
      cases bn
      · have hrest : segsNextGo st p (p.length - s.b) s = [] := by
          rw [hm, segsNextGo, hn]
        rw [gnsj_singleton_false st p s s' hn, hrest]
        rfl
      · obtain ⟨hp1, hp2, -⟩ := next_progress st p s s' hn
        have hrest : segsNextGo st p (p.length - s.b) s =
            s' :: segsNextGo st p (p.length - s'.b) s' := by
          rw [hm, segsNextGo, hn]
          dsimp only
          rw [segsNextGo_congr st p m (p.length - s'.b) s' (by omega) le_rfl]
        rw [gnsj_singleton_true st p s s' hn, hrest]
        show janmGo st [p] absolute fuel ⟨s', 0⟩ _ _ _ = _
        rw [ih (pre ++ [s]) s' _ _ _ (RunTo.step pre s s' hrun hn) (by omega)]
        rw [← revTypes_append]

/-- `join_and_normalize_multiple` over a single path: write the root,
render the surviving segments, then apply the current-directory and
termination epilogue. -/
theorem janm_singleton (st : Style) (p : Path) (hnf : NulFree p)
    (buf : Buf) :
    joinAndNormalizeMultiple st [p] buf =
      (let pos := getRoot st p
       let absolute := isRootAbsolute st p pos
       let r0 := outputSized buf 0 (p.take pos)
       match getFirstSegment st p with
       | (false, _) => (terminateOutput r0.1 pos, pos)
       | (true, s0) =>
         let r := renderFrom st p
           (survivorsFrom p absolute []
             (s0 :: segsNextGo st p (p.length - s0.b) s0)) r0.1 pos false
         let r2 :=
           if ¬ r.2.2 ∧ r.2.1 = 0 then
             let rc := outputCurrent r.1 r.2.1
             (rc.1, r.2.1 + rc.2)
           else (r.1, r.2.1)
         (terminateOutput r2.1 r2.2, r2.2)) := by
  unfold joinAndNormalizeMultiple
  rw [gfsj_singleton]
  have hgd : ([p] : List Path).getD 0 [] = p := rfl
  rw [hgd]
  dsimp only
  rcases hf : getFirstSegment st p with ⟨bf, s0⟩
  cases bf
  · rfl
  · simp only [if_true]
    have hval := first_valid st p hnf s0 (by rw [hf])
    obtain ⟨⟨hv1, hv2, hv3, hv4, -, -, -⟩, -⟩ := hval
    rw [janmGo_eval st p hnf _ (jfuel [p]) [] s0 _ _ _
      (RunTo.first s0 (by rw [hf])) (by simp [jfuel]; omega)]
    rfl

/-- Setting the element right after a full prefix. -/
theorem set_append_len (w l : List Char) (c : Char) :
    (w ++ l).set w.length c = w ++ l.set 0 c := by
  induction w with
  | nil => rfl
  | cons a w ih => simp [List.set, ih]

/-- `memmove` into the middle of an ample buffer splices the data in. -/
theorem writeAt_append :
    ∀ (s w rest : List Char), s.length ≤ rest.length →
      writeAt (w ++ rest) w.length s = w ++ s ++ rest.drop s.length := by
  intro s
  induction s with
  | nil =>
    intro w rest h
    simp [writeAt]
  | cons c cs ih =>
    intro w rest h
    rcases rest with _ | ⟨r0, rest⟩
    · simp at h
    rw [writeAt, set_append_len]
    have h1 : (r0 :: rest).set 0 c = c :: rest := rfl
    rw [h1]
    have h2 : w ++ c :: rest = (w ++ [c]) ++ rest := by simp
    have h3 : w.length + 1 = (w ++ [c]).length := by simp
    rw [h2, h3, ih (w ++ [c]) rest (by simp at h ⊢; omega)]
    simp

/-- `output_sized` with ample remaining capacity writes everything. -/
theorem outputSized_append (s w rest : List Char)
    (h : s.length < rest.length) :
    outputSized (w ++ rest) w.length s =
      (w ++ s ++ rest.drop s.length, s.length) := by
  unfold outputSized
  dsimp only
  rw [if_pos (show (w ++ rest).length > w.length + s.length by
    simp only [List.length_append]; omega)]
  rcases s with _ | ⟨c, cs⟩
  · simp [writeAt]
  · rw [if_pos (by simp)]
    rw [List.take_length]
    rw [writeAt_append (c :: cs) w rest (by simp at h ⊢; omega)]

/-- Terminating inside an ample buffer does not disturb the written
prefix. -/
theorem terminateOutput_take (w rest : List Char) (h : rest ≠ []) :
    (terminateOutput (w ++ rest) w.length).take w.length = w := by
  unfold terminateOutput
  have hlen : 0 < rest.length := List.length_pos.mpr h
  rw [if_pos (by simp only [List.length_append]; omega)]
  rw [if_neg (by simp only [List.length_append]; omega)]
  rw [set_append_len]
  rw [List.take_left w (rest.set 0 nulChar)]

/-- `output_separator` is `output_sized` on the one-character separator
string. -/
theorem outputSeparator_eq (st : Style) (buf : Buf) (pos : Nat) :
    outputSeparator st buf pos = outputSized buf pos [sepChar st] := rfl

/-- `output_current` is `output_sized` on `"."`. -/
theorem outputCurrent_eq (buf : Buf) (pos : Nat) :
    outputCurrent buf pos = outputSized buf pos ['.'] := rfl

/-- The position and flag returned by the writing pass do not depend on
the buffer: the untruncated render length is always added. -/
theorem renderFrom_len (st : Style) (p : Path) :
    ∀ (ss : List Seg) (buf : Buf) (pos : Nat) (ho : Bool),
      (renderFrom st p ss buf pos ho).2.1 =
        pos + (renderSlices st ho (ss.map (segSlice p))).length ∧
      (renderFrom st p ss buf pos ho).2.2 = (ho || !ss.isEmpty) := by
  intro ss
  induction ss with
  | nil =>
    intro buf pos ho
    simp [renderFrom, renderSlices]
  | cons s ss ih =>
    intro buf pos ho
    rw [renderFrom]
    dsimp only
    cases ho
    · obtain ⟨ih1, ih2⟩ := ih (outputSized buf pos (segSlice p s)).1
        (pos + (outputSized buf pos (segSlice p s)).2) true
      rw [if_neg Bool.false_ne_true] at *
      refine ⟨?_, ?_⟩
      · rw [ih1, outputSized_snd]
        simp [renderSlices, List.length_append]
        omega
      · rw [ih2]
        simp
    · have hsep := outputSeparator_eq st buf pos
      obtain ⟨ih1, ih2⟩ := ih
        (outputSized (outputSeparator st buf pos).1
          (pos + (outputSeparator st buf pos).2) (segSlice p s)).1
        ((pos + (outputSeparator st buf pos).2) +
          (outputSized (outputSeparator st buf pos).1
            (pos + (outputSeparator st buf pos).2) (segSlice p s)).2) true
      rw [if_pos rfl] at *
      refine ⟨?_, ?_⟩
      · rw [ih1, outputSized_snd, hsep, outputSized_snd]
        simp [renderSlices, List.length_append]
        omega
      · rw [ih2]
        simp

/-- In a buffer with ample room after the written prefix, the writing
pass appends exactly the rendered string. -/
theorem renderFrom_ample (st : Style) (p : Path) :
    ∀ (ss : List Seg) (w rest : List Char) (ho : Bool),
      (renderSlices st ho (ss.map (segSlice p))).length < rest.length →
      ∃ rest' : List Char,
        rest'.length + (renderSlices st ho (ss.map (segSlice p))).length
            = rest.length ∧
        renderFrom st p ss (w ++ rest) w.length ho =
          (w ++ renderSlices st ho (ss.map (segSlice p)) ++ rest',
           w.length + (renderSlices st ho (ss.map (segSlice p))).length,
           ho || !ss.isEmpty) := by
  intro ss
  induction ss with
  | nil =>
    intro w rest ho h
    exact ⟨rest, by simp [renderSlices], by simp [renderFrom, renderSlices]⟩
  | cons s ss ih =>
    intro w rest ho h
    rw [renderFrom]
    dsimp only
    cases ho
    · rw [if_neg Bool.false_ne_true]
      have hsl : (segSlice p s).length < rest.length := by
        simp [renderSlices, List.length_append] at h
        omega
      rw [outputSized_append (segSlice p s) w rest hsl]
      dsimp only
      have hw : w.length + (segSlice p s).length =
          (w ++ segSlice p s).length := by simp
      have hb : w ++ segSlice p s ++ rest.drop (segSlice p s).length =
          (w ++ segSlice p s) ++ rest.drop (segSlice p s).length := by simp
      rw [hw, hb]
      obtain ⟨rest', hlen', heq⟩ := ih (w ++ segSlice p s)
        (rest.drop (segSlice p s).length) true
        (by
          simp only [List.length_drop]
          simp [renderSlices, List.length_append] at h
          omega)
      rw [heq]
      refine ⟨rest', ?_, ?_⟩
      · simp only [List.length_drop] at hlen' ⊢
        simp [renderSlices, List.length_append] at h ⊢
        omega
      · simp [renderSlices, List.append_assoc, List.length_append]
        omega
    · rw [if_pos rfl]
      rw [outputSeparator_eq]
      have hs1 : (1 : Nat) < rest.length := by
        simp [renderSlices, List.length_append] at h
        omega
      have h1 : ([sepChar st] : List Char).length = 1 := rfl
      rw [outputSized_append [sepChar st] w rest (by rw [h1]; omega)]
      dsimp only
      rw [h1]
      have hw1 : w.length + 1 = (w ++ [sepChar st]).length := by simp
      have hb1 : w ++ [sepChar st] ++ rest.drop 1 =
          (w ++ [sepChar st]) ++ rest.drop 1 := by simp
      rw [hw1, hb1]
      have hsl : (segSlice p s).length < (rest.drop 1).length := by
        simp only [List.length_drop]
        simp [renderSlices, List.length_append] at h
        omega
      rw [outputSized_append (segSlice p s) (w ++ [sepChar st])
        (rest.drop 1) hsl]
      dsimp only
      have hw2 : (w ++ [sepChar st]).length + (segSlice p s).length =
          ((w ++ [sepChar st]) ++ segSlice p s).length := by
        simp
        omega
      have hb2 : (w ++ [sepChar st]) ++ segSlice p s ++
            (rest.drop 1).drop (segSlice p s).length =
          ((w ++ [sepChar st]) ++ segSlice p s) ++
            (rest.drop 1).drop (segSlice p s).length := by simp
      rw [hw2, hb2]
      obtain ⟨rest', hlen', heq⟩ := ih ((w ++ [sepChar st]) ++ segSlice p s)
        ((rest.drop 1).drop (segSlice p s).length) true
        (by
          simp only [List.length_drop]
          simp [renderSlices, List.length_append] at h
          omega)
      rw [heq]
      refine ⟨rest', ?_, ?_⟩
      · simp only [List.length_drop] at hlen' ⊢
        simp [renderSlices, List.length_append] at h ⊢
        omega
      · simp [renderSlices, List.append_assoc, List.length_append]
        omega

/-- `output_sized` at the start of an ample buffer. -/
theorem outputSized_front (s rest : List Char) (h : s.length < rest.length) :
    outputSized rest 0 s = (s ++ rest.drop s.length, s.length) := by
  have := outputSized_append s [] rest h
  simpa using this

/-- The length returned by `normalize` is the length of the spec-level
output, whatever the buffer. -/
theorem normalize_len (st : Style) (p : Path) (hnf : NulFree p)
    (hroot : getRoot st p ≤ p.length) (buf : Buf) :
    (normalize st p buf).2 = (normalSpec st p).length := by
  unfold normalize normalSpec
  rw [janm_singleton st p hnf buf]
  dsimp only
  rcases hf : getFirstSegment st p with ⟨bf, s0⟩
  cases bf
  · dsimp only
    rw [List.length_take]
    omega
  · dsimp only
    set sv := survivorsFrom p (isRootAbsolute st p (getRoot st p)) []
      (s0 :: segsNextGo st p (p.length - s0.b) s0) with hsv
    obtain ⟨hl1, hl2⟩ := renderFrom_len st p sv
      (outputSized buf 0 (p.take (getRoot st p))).1 (getRoot st p) false
    by_cases hemp : sv.isEmpty
    · have hsv0 : sv = [] := List.isEmpty_iff.mp hemp
      by_cases hr0 : getRoot st p = 0
      · rw [if_pos (by
          constructor
          · rw [hl2, hsv0]
            simp
          · rw [hl1, hsv0, hr0]
            simp [renderSlices])]
        rw [if_pos ⟨hemp, hr0⟩]
        dsimp only
        rw [hl1, hsv0, hr0]
        simp [renderSlices, outputCurrent_eq, outputSized_snd]
      · rw [if_neg (by
          intro hcon
          apply hr0
          have := hcon.2
          rw [hl1, hsv0] at this
          simp [renderSlices] at this
          omega)]
        rw [if_neg (by intro hcon; exact hr0 hcon.2)]
        dsimp only
        rw [hl1, hsv0]
        simp [renderSlices, List.length_take]
        omega
    · rw [if_neg (by
        intro hcon
        apply hemp
        have := hcon.1
        rw [hl2] at this
        simpa using this)]
      rw [if_neg (by intro hcon; exact hemp hcon.1)]
      dsimp only
      rw [hl1]
      simp [List.length_take, List.length_append]
      omega

/-- `output_sized` on the empty string leaves the buffer alone. -/
theorem outputSized_empty_str (buf : Buf) (pos : Nat) :
    outputSized buf pos [] = (buf, 0) := by
  unfold outputSized
  simp [writeAt]

/-- Position-generalized form of `terminateOutput_take`. -/
theorem terminateOutput_take_pos (w rest : List Char) (pos : Nat)
    (hpos : pos = w.length) (h : rest ≠ []) :
    (terminateOutput (w ++ rest) pos).take w.length = w := by
  subst hpos
  exact terminateOutput_take w rest h

/-- Position-generalized form of `renderFrom_ample`. -/
theorem renderFrom_ample_pos (st : Style) (p : Path) (ss : List Seg)
    (w rest : List Char) (ho : Bool) (pos : Nat) (hpos : pos = w.length)
    (h : (renderSlices st ho (ss.map (segSlice p))).length < rest.length) :
    ∃ rest' : List Char,
      rest'.length + (renderSlices st ho (ss.map (segSlice p))).length
          = rest.length ∧
      renderFrom st p ss (w ++ rest) pos ho =
        (w ++ renderSlices st ho (ss.map (segSlice p)) ++ rest',
         w.length + (renderSlices st ho (ss.map (segSlice p))).length,
         ho || !ss.isEmpty) := by
  subst hpos
  exact renderFrom_ample st p ss w rest ho h

/-- The output string of `normalize` with an ample buffer is the
spec-level output. -/
theorem normalizeOut_eq (st : Style) (p : Path) (hnf : NulFree p)
    (hroot : getRoot st p ≤ p.length) :
    normalizeOut st p = normalSpec st p := by
  unfold normalizeOut runBuffered
  dsimp only
  rw [normalize_len st p hnf hroot []]
  rcases hbig : normalize st p
      (List.replicate ((normalSpec st p).length + 1) nulChar) with ⟨outB, outN⟩
  have houtN : outN = (normalSpec st p).length := by
    have := normalize_len st p hnf hroot
      (List.replicate ((normalSpec st p).length + 1) nulChar)
    rw [hbig] at this
    exact this
  subst houtN
  dsimp only
  unfold normalize at hbig
  rw [janm_singleton st p hnf] at hbig
  dsimp only at hbig
  have hwlen : (p.take (getRoot st p)).length = getRoot st p := by
    rw [List.length_take]
    omega
  unfold normalSpec at hbig ⊢
  rcases hf : getFirstSegment st p with ⟨bf, s0⟩
  rw [hf] at hbig
  cases bf
  · -- no segments: the output is the root
    dsimp only at hbig ⊢
    rw [outputSized_front (p.take (getRoot st p))
      (List.replicate ((p.take (getRoot st p)).length + 1) nulChar)
      (by simp)] at hbig
    dsimp only at hbig
    injection hbig with h1 h2
    rw [← h1]
    exact terminateOutput_take_pos (p.take (getRoot st p)) _ _ hwlen.symm
      (by simp)
  · dsimp only at hbig ⊢
    set sv := survivorsFrom p (isRootAbsolute st p (getRoot st p)) []
      (s0 :: segsNextGo st p (p.length - s0.b) s0) with hsv
    set L := (renderSlices st false (sv.map (segSlice p))).length with hL
    by_cases hcond : sv.isEmpty ∧ getRoot st p = 0
    · -- the "." case
      rw [if_pos hcond] at hbig ⊢
      obtain ⟨hemp, hr0⟩ := hcond
      have hsv0 : sv = [] := List.isEmpty_iff.mp hemp
      rw [hsv0, hr0] at hbig
      simp only [List.take_zero] at hbig
      rw [outputSized_empty_str] at hbig
      dsimp only at hbig
      rw [renderFrom] at hbig
      rw [if_pos (by exact ⟨by simp, rfl⟩)] at hbig
      dsimp only at hbig
      rw [outputCurrent_eq] at hbig
      rw [outputSized_front ['.'] _ (by simp)] at hbig
      dsimp only at hbig
      injection hbig with h1 h2
      rw [← h1]
      exact terminateOutput_take_pos ['.'] _ _ rfl (by simp)
    · rw [if_neg hcond] at hbig ⊢
      have hlen2 : (p.take (getRoot st p) ++
          renderSlices st false (sv.map (segSlice p))).length =
          getRoot st p + L := by
        simp only [List.length_append, hwlen, hL]
      rw [hlen2] at hbig
      rw [outputSized_front (p.take (getRoot st p))
        (List.replicate (getRoot st p + L + 1) nulChar)
        (by simp [hwlen]; omega)] at hbig
      dsimp only at hbig
      obtain ⟨rest', hrlen, hre⟩ := renderFrom_ample_pos st p sv
        (p.take (getRoot st p))
        ((List.replicate (getRoot st p + L + 1)
          nulChar).drop (p.take (getRoot st p)).length)
        false (getRoot st p) hwlen.symm
        (by
          simp only [List.length_drop, List.length_replicate, hwlen, ← hL]
          omega)
      rw [hre] at hbig
      dsimp only at hbig
      rw [if_neg (by
        intro hcon
        rcases hcon with ⟨hc1, hc2⟩
        apply hcond
        rcases hb : sv.isEmpty with _ | _
        · exact absurd (by rw [hb]; rfl) hc1
        · refine ⟨rfl, ?_⟩
          rw [← hwlen]
          omega)] at hbig
      dsimp only at hbig
      rw [show p.take (getRoot st p) ++
            renderSlices st false (sv.map (segSlice p)) ++ rest' =
          (p.take (getRoot st p) ++
            renderSlices st false (sv.map (segSlice p))) ++ rest' from by
        simp [List.append_assoc]] at hbig
      injection hbig with h1 h2
      rw [← h1]
      exact terminateOutput_take_pos
        (p.take (getRoot st p) ++ renderSlices st false (sv.map (segSlice p)))
        rest' _
        (by simp only [List.length_append, hwlen, hL])
        (by
          intro hcon
          rw [hcon] at hrlen
          simp only [List.length_nil, List.length_drop,
            List.length_replicate, hwlen, ← hL] at hrlen
          omega)

/-- Members of the survivor list come from the processed list. -/
theorem survivorsFrom_subset (p : Path) (absolute : Bool) :
    ∀ (L : List Seg) (preT : List SegType) (s : Seg),
      s ∈ survivorsFrom p absolute preT L → s ∈ L := by
  intro L
  induction L with
  | nil => intro preT s h; cases h
  | cons t L ih =>
    intro preT s h
    rw [survivorsFrom] at h
    split at h
    · exact List.mem_cons_of_mem _ (ih _ s h)
    · rcases List.mem_cons.mp h with h | h
      · exact h ▸ List.mem_cons_self _ _
      · exact List.mem_cons_of_mem _ (ih _ s h)

/-- If every processed prefix already makes the look-behind walk fire,
only Normal segments survive from here on. -/
theorem survivors_all_normal (p : Path) :
    ∀ (L : List Seg) (preT : List SegType),
      (∀ j ≤ L.length, ∃ k,
        0 < bal (((((L.take j).map (getSegmentType p)).reverse) ++
          preT).take k)) →
      ∀ s ∈ survivorsFrom p false preT L, getSegmentType p s = .normal := by
  intro L
  induction L with
  | nil => intro preT _ s h; cases h
  | cons t L ih =>
    intro preT hgood s hs
    rw [survivorsFrom] at hs
    have hgood' : ∀ j ≤ L.length, ∃ k,
        0 < bal (((((L.take j).map (getSegmentType p)).reverse) ++
          (getSegmentType p t :: preT)).take k) := by
      intro j hj
      obtain ⟨k, hk⟩ := hgood (j + 1) (by simp; omega)
      refine ⟨k, ?_⟩
      rw [List.take_succ_cons, List.map_cons, List.reverse_cons,
        List.append_assoc] at hk
      simpa using hk
    have hback : specBackElided 0 preT = true := by
      obtain ⟨k, hk⟩ := hgood 0 (by omega)
      simp only [List.take_zero, List.map_nil, List.reverse_nil,
        List.nil_append] at hk
      exact specBackElided_true_of preT k hk
    rcases htype : getSegmentType p t with _ | _ | _
    all_goals rw [htype] at hgood' hs
    · -- normal head
      split at hs
      · exact ih _ hgood' s hs
      · rcases List.mem_cons.mp hs with h | h
        · rw [h, htype]
        · exact ih _ hgood' s h
    · -- current head: always removed
      rw [if_pos rfl] at hs
      exact ih _ hgood' s hs
    · -- back head: removed because the walk fires
      rw [hback] at hs
      rw [if_pos (by simp)] at hs
      exact ih _ hgood' s hs

/-- The surviving segment types are Back segments first, then Normal
segments (relative joined path). -/
theorem survivorsFrom_pattern (p : Path) :
    ∀ (L : List Seg) (preT : List SegType),
      backsThenNormalsB
        ((survivorsFrom p false preT L).map (getSegmentType p)) = true := by
  intro L
  induction L with
  | nil => intro preT; rfl
  | cons t L ih =>
    intro preT
    rw [survivorsFrom]
    rcases htype : getSegmentType p t with _ | _ | _
    · -- normal head
      dsimp only
      rcases hrem : specNormalElided 0 (L.map (getSegmentType p)) with _ | _
      · -- kept
        rw [if_neg (by simp)]
        rw [List.map_cons, htype]
        have hkeep := (specNormalElided_false_iff (L.map (getSegmentType p))
          0 le_rfl).mp hrem
        have hall := survivors_all_normal p L (SegType.normal :: preT)
          (by
            intro j hj
            refine ⟨j + 1, ?_⟩
            have hlenj : (((L.take j).map (getSegmentType p)).reverse).length
                = j := by
              simp [List.length_take]
              omega
            rw [List.take_append_eq_append_take]
            rw [List.take_of_length_le (by rw [hlenj]; omega)]
            rw [hlenj]
            have hj1 : j + 1 - j = 1 := by omega
            rw [hj1]
            have h1 : (SegType.normal :: preT).take 1 = [SegType.normal] :=
              rfl
            rw [h1]
            rw [bal_append, bal_reverse]
            have := hkeep j
            simp [bal, typeWeight]
            omega)
        have hmap : ∀ u ∈ (survivorsFrom p false (SegType.normal :: preT)
            L).map (getSegmentType p), (u == SegType.normal) = true := by
          intro u hu
          obtain ⟨s', hs', rfl⟩ := List.mem_map.mp hu
          simp [hall s' hs']
        simp only [backsThenNormalsB]
        exact List.all_eq_true.mpr hmap
      · -- removed
        rw [if_pos rfl]
        exact ih _
    · -- current head: removed
      dsimp only
      rw [if_pos rfl]
      exact ih _
    · -- back head
      dsimp only
      rcases hrem : specBackElided 0 preT with _ | _
      · rw [if_neg (by simp)]
        rw [List.map_cons, htype]
        simp only [backsThenNormalsB]
        exact ih _
      · rw [if_pos (by simp)]
        exact ih _

/-- A segment list of Normal segments passes the elision pass
untouched. -/
theorem survivorsFrom_all_normal_id (p : Path) (absolute : Bool) :
    ∀ (L : List Seg) (preT : List SegType),
      (∀ s ∈ L, getSegmentType p s = .normal) →
      survivorsFrom p absolute preT L = L := by
  intro L
  induction L with
  | nil => intro preT _; rfl
  | cons t L ih =>
    intro preT h
    rw [survivorsFrom]
    rw [h t (by simp)]
    rw [specNormalElided_all_normal _ (by
      intro u hu
      obtain ⟨s', hs', rfl⟩ := List.mem_map.mp hu
      exact h s' (by simp [hs']))]
    rw [if_neg (by simp)]
    rw [ih _ (fun s hs => h s (by simp [hs]))]

/-- A Back-then-Normal segment list with an all-Back processed prefix
passes the elision pass of a relative path untouched. -/
theorem survivorsFrom_pattern_id (p : Path) :
    ∀ (L : List Seg) (m : Nat),
      backsThenNormalsB (L.map (getSegmentType p)) = true →
      survivorsFrom p false (List.replicate m .back) L = L := by
  intro L
  induction L with
  | nil => intro m _; rfl
  | cons t L ih =>
    intro m h
    rw [List.map_cons] at h
    rw [survivorsFrom]
    rcases htype : getSegmentType p t with _ | _ | _
    · -- normal head: the rest is all normal
      rw [htype] at h
      simp only [backsThenNormalsB] at h
      have hall : ∀ s ∈ L, getSegmentType p s = .normal := by
        intro s hs
        have := List.all_eq_true.mp h (getSegmentType p s)
          (List.mem_map_of_mem _ hs)
        simpa using this
      rw [specNormalElided_all_normal _ (by
        intro u hu
        obtain ⟨s', hs', rfl⟩ := List.mem_map.mp hu
        exact hall s' hs')]
      rw [if_neg (by simp)]
      rw [survivorsFrom_all_normal_id p false L _ hall]
    · -- current head cannot occur in the pattern
      rw [htype] at h
      simp [backsThenNormalsB] at h
    · -- back head
      rw [htype] at h
      simp only [backsThenNormalsB] at h
      rw [specBackElided_replicate_back m]
      rw [if_neg (by simp)]
      have hrep : (SegType.back :: List.replicate m SegType.back) =
          List.replicate (m + 1) SegType.back :=
        (List.replicate_succ _ _).symm
      rw [hrep, ih (m + 1) h]

/-- Every segment the forward iterator enumerates from a valid segment is
valid. -/
theorem segsNextGo_valid (st : Style) (p : Path) (hnf : NulFree p) :
    ∀ (k : Nat) (s : Seg), ValidSeg st p s →
      ∀ s' ∈ segsNextGo st p k s, ValidSeg st p s' := by
  intro k
  induction k with
  | zero => intro s _ s' h; cases h
  | succ k ih =>
    intro s hv s' h
    rw [segsNextGo] at h
    rcases hn : getNextSegment st p s with ⟨bn, s1⟩
    rw [hn] at h
    cases bn
    · cases h
    · dsimp only at h
      have hv1 := next_valid st p hnf s s1 hv hn
      rcases List.mem_cons.mp h with h | h
      · exact h ▸ hv1
      · exact ih s1 hv1 s' h

/-- The text of a valid segment of a NUL-free path is nonempty,
separator-free and NUL-free. -/
theorem segSlice_good (st : Style) (p : Path) (hnf : NulFree p) (s : Seg)
    (hv : ValidSeg st p s) :
    segSlice p s ≠ [] ∧
    ∀ c ∈ segSlice p s, isSepChar st c = false ∧ c ≠ nulChar := by
  obtain ⟨hv1, hv2, hv3, hv4, hv5, -, -⟩ := hv
  constructor
  · intro hcon
    have := congrArg List.length hcon
    simp only [segSlice, List.length_take, List.length_drop,
      List.length_nil] at this
    omega
  · intro c hc
    obtain ⟨i, hi, hgi⟩ := List.mem_iff_getElem.mp hc
    have hilt : i < s.size := by
      have := hi
      simp only [segSlice, List.length_take, List.length_drop] at this
      omega
    have hlt : s.b + i < p.length := by omega
    have hci : c = charAt p (s.b + i) := by
      rw [← hgi]
      unfold charAt
      rw [List.getD_eq_getElem p nulChar hlt]
      simp only [segSlice]
      rw [List.getElem_take, List.getElem_drop]
    constructor
    · have := hv5 (s.b + i) (by omega) (by omega)
      unfold isSepAt at this
      rw [hci]
      exact this
    · rw [hci]
      exact hnf _ (charAt_mem p _ hlt)

/-- Reading in a dropped suffix. -/
theorem charAt_drop (p : Path) (a i : Nat) :
    charAt (p.drop a) i = charAt p (a + i) := by
  unfold charAt
  simp [List.getD_eq_getElem?_getD, List.getElem?_drop]

/-- Reading inside the left part of a concatenation. -/
theorem charAt_append_lt (y z : List Char) (i : Nat) (h : i < y.length) :
    charAt (y ++ z) i = charAt y i := by
  unfold charAt
  rw [List.getD_append _ _ _ _ h]

/-- Reading right after the left part of a concatenation. -/
theorem charAt_append_len (y z : List Char) :
    charAt (y ++ z) y.length = charAt z 0 := by
  unfold charAt
  rw [List.getD_append_right _ _ _ _ (le_refl _)]
  simp

/-- The head of a dropped suffix. -/
theorem charAt_of_drop_cons (p : Path) (a : Nat) (c : Char) (l : List Char)
    (h : p.drop a = c :: l) : charAt p a = c := by
  have h0 := charAt_drop p a 0
  rw [h] at h0
  simpa using h0.symm

/-- Dropping one more character off a dropped suffix. -/
theorem drop_succ_of_drop_cons (p : Path) (a : Nat) (c : Char)
    (l : List Char) (h : p.drop a = c :: l) : p.drop (a + 1) = l := by
  have h1 : p.drop (a + 1) = (p.drop a).drop 1 := by
    rw [List.drop_drop]
  rw [h1, h]
  rfl

/-- Reading at or past the end yields the NUL. -/
theorem charAt_of_ge (p : Path) (i : Nat) (h : p.length ≤ i) :
    charAt p i = nulChar := by
  unfold charAt
  rw [List.getD_eq_default]
  omega

/-- The separator-skip scan does not move off a non-separator. -/
theorem skipSeps_exact (st : Style) (p : Path) (i : Nat)
    (h : isSepAt st p i = false) : skipSeps st p i = i := by
  obtain ⟨h1, h2, h3⟩ := skipSeps_spec st p i
  rcases Nat.eq_or_lt_of_le h1 with hh | hh
  · exact hh.symm
  · exact absurd (h2 i le_rfl hh) (by simp [h])

/-- `find_next_stop` lands exactly on the first NUL-or-separator
position. -/
theorem findNextStop_exact (st : Style) (p : Path) (i m : Nat)
    (him : i ≤ m)
    (hmid : ∀ j, i ≤ j → j < m →
      charAt p j ≠ nulChar ∧ isSepAt st p j = false)
    (hstop : charAt p m = nulChar ∨ isSepAt st p m = true) :
    findNextStop st p i = m := by
  obtain ⟨h1, h2, h3⟩ := findNextStop_spec st p i
  rcases Nat.lt_trichotomy (findNextStop st p i) m with hh | hh | hh
  · obtain ⟨hc, hs⟩ := hmid _ h1 hh
    rcases h3 with h3 | h3
    · exact absurd h3 hc
    · rw [hs] at h3
      cases h3
  · exact hh
  · obtain ⟨hc, hs⟩ := h2 m him hh
    rcases hstop with h | h
    · exact absurd h hc
    · rw [hs] at h
      cases h

/-- The leading-separator scan does not move off a non-separator. -/
theorem firstSegScanGo_nosep (st : Style) (p : Path) (k i : Nat)
    (h : isSepAt st p i = false) : firstSegScanGo st p k i = some i := by
  cases k with
  | zero => rfl
  | succ k => rw [firstSegScanGo, if_neg (by simp [h])]

/-- The canonical separator is a separator and is not the NUL. -/
theorem sepChar_props (st : Style) :
    isSepChar st (sepChar st) = true ∧ sepChar st ≠ nulChar := by
  cases st <;> exact ⟨by decide, by decide⟩

/-- One parsing step inside a rendered string: from the beginning of a
slice, the text scan runs to the end of the slice, which is followed by a
separator or the end of the string. -/
theorem render_step (st : Style) (O : Path) (b : Nat) (x : List Char)
    (xs : List (List Char))
    (hx : x ≠ []) (hxc : ∀ c ∈ x, isSepChar st c = false ∧ c ≠ nulChar)
    (hO : O.drop b = x ++ renderSlices st true xs) :
    b + x.length ≤ O.length ∧
    (∀ j, b ≤ j → j < b + x.length → charAt O j ≠ nulChar ∧
      isSepAt st O j = false) ∧
    findNextStop st O b = b + x.length ∧
    O.drop (b + x.length) = renderSlices st true xs := by
  have hlen : O.length - b = x.length + (renderSlices st true xs).length := by
    have := congrArg List.length hO
    simpa using this
  have hble : b ≤ O.length := by
    by_contra hcon
    have : O.drop b = [] := List.drop_eq_nil_of_le (by omega)
    rw [this] at hO
    have := congrArg List.length hO
    simp at this
    have hxl : 0 < x.length := List.length_pos.mpr hx
    omega
  have hbxle : b + x.length ≤ O.length := by omega
  have hmid : ∀ j, b ≤ j → j < b + x.length → charAt O j ≠ nulChar ∧
      isSepAt st O j = false := by
    intro j hj1 hj2
    obtain ⟨i, rfl⟩ : ∃ i, j = b + i := ⟨j - b, by omega⟩
    have hilt : i < x.length := by omega
    have hc : charAt O (b + i) = charAt x i := by
      rw [← charAt_drop O b i, hO, charAt_append_lt x _ i hilt]
    have hmem : charAt x i ∈ x := charAt_mem x i hilt
    obtain ⟨hs, hn⟩ := hxc _ hmem
    refine ⟨by rw [hc]; exact hn, ?_⟩
    unfold isSepAt
    rw [hc]
    exact hs
  have hdropx : O.drop (b + x.length) = renderSlices st true xs := by
    have h1 : O.drop (b + x.length) = (O.drop b).drop x.length := by
      rw [List.drop_drop]
    rw [h1, hO, List.drop_left]
  have hstop : charAt O (b + x.length) = nulChar ∨
      isSepAt st O (b + x.length) = true := by
    rcases xs with _ | ⟨y, ys⟩
    · left
      apply charAt_of_ge
      simp [renderSlices] at hlen
      omega
    · right
      have hd : O.drop (b + x.length) =
          sepChar st :: (y ++ renderSlices st true ys) := by
        rw [hdropx]
        simp [renderSlices]
      have := charAt_of_drop_cons O _ _ _ hd
      unfold isSepAt
      rw [this]
      exact (sepChar_props st).1
  exact ⟨hbxle, hmid, findNextStop_exact st O b (b + x.length) (by omega)
    hmid hstop, hdropx⟩

/-- Iterating the segment scanner through a rendered tail enumerates
exactly the rendered slices. -/
theorem segsNextGo_render (st : Style) (O : Path) (r : Nat) :
    ∀ (k : Nat) (xs : List (List Char)) (b n : Nat),
      GoodSlices st xs →
      b + n ≤ O.length →
      O.drop (b + n) = renderSlices st true xs →
      O.length - b ≤ k →
      segsNextGo st O k ⟨r, b, b + n, n⟩ = renderSegs r (b + n + 1) xs := by
  intro k
  induction k with
  | zero =>
    intro xs b n hgood hle hdrop hk
    rcases xs with _ | ⟨y, ys⟩
    · rfl
    · exfalso
      have := congrArg List.length hdrop
      simp [renderSlices] at this
      omega
  | succ k ih =>
    intro xs b n hgood hle hdrop hk
    rw [segsNextGo]
    rcases xs with _ | ⟨y, ys⟩
    · have hend : O.length ≤ b + n := by
        have := congrArg List.length hdrop
        simp [renderSlices] at this
        omega
      have hnul : charAt O (b + n) = nulChar := charAt_of_ge O _ hend
      unfold getNextSegment
      dsimp only
      rw [if_pos hnul]
      rfl
    · obtain ⟨hy1, hy2⟩ := hgood y (by simp)
      have hys : GoodSlices st ys := fun u hu => hgood u (by simp [hu])
      have hdrop' : O.drop (b + n) =
          sepChar st :: (y ++ renderSlices st true ys) := by
        rw [hdrop]
        simp [renderSlices]
      have hsep0 : charAt O (b + n) = sepChar st :=
        charAt_of_drop_cons O _ _ _ hdrop'
      have hdrop1 : O.drop (b + n + 1) = y ++ renderSlices st true ys :=
        drop_succ_of_drop_cons O _ _ _ hdrop'
      obtain ⟨hbd, hmid, hstop, hdropnext⟩ :=
        render_step st O (b + n + 1) y ys hy1 hy2 hdrop1
      have hylen : 0 < y.length := List.length_pos.mpr hy1
      have hclean1 : charAt O (b + n + 1) ≠ nulChar ∧
          isSepAt st O (b + n + 1) = false :=
        hmid (b + n + 1) le_rfl (by omega)
      unfold getNextSegment
      dsimp only
      rw [if_neg (by rw [hsep0]; exact (sepChar_props st).2)]
      rw [skipSeps_exact st O (b + n + 1) hclean1.2]
      rw [if_neg hclean1.1]
      rw [hstop]
      dsimp only
      have hseg : (⟨r, b + n + 1, b + n + 1 + y.length,
          b + n + 1 + y.length - (b + n + 1)⟩ : Seg) =
          ⟨r, b + n + 1, b + n + 1 + y.length, y.length⟩ := by
        simp only [Seg.mk.injEq, true_and]
        omega
      rw [hseg]
      rw [renderSegs]
      have htail := ih ys (b + n + 1) y.length hys hbd hdropnext (by omega)
      rw [htail]

/-- The slices of the segments parsed from a rendered tail are the
rendered slices. -/
theorem renderSegs_slices (st : Style) (O : Path) (r : Nat) :
    ∀ (xs : List (List Char)) (b : Nat),
      O.drop b = renderSlices st true xs →
      (renderSegs r (b + 1) xs).map (segSlice O) = xs := by
  intro xs
  induction xs with
  | nil => intro b _; rfl
  | cons y ys ih =>
    intro b hdrop
    have hdrop' : O.drop b = sepChar st :: (y ++ renderSlices st true ys) := by
      rw [hdrop]
      simp [renderSlices]
    have hdrop1 : O.drop (b + 1) = y ++ renderSlices st true ys :=
      drop_succ_of_drop_cons O _ _ _ hdrop'
    rw [renderSegs]
    rw [List.map_cons]
    have hsl : segSlice O ⟨r, b + 1, b + 1 + y.length, y.length⟩ = y := by
      unfold segSlice
      dsimp only
      rw [hdrop1, List.take_left]
    rw [hsl]
    have h2 : O.drop (b + 1 + y.length) = renderSlices st true ys := by
      have h1 : O.drop (b + 1 + y.length) = (O.drop (b + 1)).drop y.length := by
        rw [List.drop_drop]
      rw [h1, hdrop1, List.drop_left]
    rw [ih (b + 1 + y.length) h2]

/-- The root of a rendered Unix string is the length of its root part. -/
theorem getRoot_unix_render (R : List Char) (xs : List (List Char))
    (hR : R = [] ∨ R = [sepChar .unix]) (hgood : GoodSlices .unix xs) :
    getRoot .unix (R ++ renderSlices .unix false xs) = R.length := by
  rcases hR with rfl | rfl
  · rcases xs with _ | ⟨y, ys⟩
    · rfl
    · obtain ⟨hy1, hy2⟩ := hgood y (by simp)
      rcases y with _ | ⟨c0, y'⟩
      · exact absurd rfl hy1
      show getRootUnix _ = 0
      unfold getRootUnix
      rw [if_neg (by
        unfold isSepAt
        have : charAt ([] ++ renderSlices .unix false ((c0 :: y') :: ys)) 0
            = c0 := by
          simp [renderSlices, charAt]
        rw [this]
        simp [(hy2 c0 (by simp)).1])]
  · show getRootUnix _ = 1
    unfold getRootUnix
    rw [if_pos (by
      unfold isSepAt
      have : charAt ([sepChar .unix] ++ renderSlices .unix false xs) 0 =
          sepChar .unix := by
        simp [charAt]
      rw [this]
      exact (sepChar_props .unix).1)]

/-- Parsing a rendered Unix string yields exactly the rendered segment
records. -/
theorem segsOf_render_unix (R : List Char) (xs : List (List Char))
    (hR : R = [] ∨ R = [sepChar .unix]) (hgood : GoodSlices .unix xs) :
    segsOf .unix (R ++ renderSlices .unix false xs) =
      renderSegs R.length R.length xs := by
  have hroot := getRoot_unix_render R xs hR hgood
  unfold segsOf getFirstSegment
  rw [hroot]
  rcases xs with _ | ⟨y, ys⟩
  · -- no slices: no first segment
    unfold getFirstSegmentWithoutRoot
    dsimp only
    rw [if_pos (by
      apply charAt_of_ge
      rcases hR with rfl | rfl <;> simp [renderSlices])]
    rfl
  · obtain ⟨hy1, hy2⟩ := hgood y (by simp)
    have hys : GoodSlices .unix ys := fun u hu => hgood u (by simp [hu])
    have hdropR : (R ++ renderSlices .unix false (y :: ys)).drop R.length =
        y ++ renderSlices .unix true ys := by
      rw [List.drop_left]
      simp [renderSlices]
    obtain ⟨hbd, hmid, hstop, hdropnext⟩ :=
      render_step .unix (R ++ renderSlices .unix false (y :: ys)) R.length
        y ys hy1 hy2 hdropR
    have hylen : 0 < y.length := List.length_pos.mpr hy1
    have hclean0 : charAt (R ++ renderSlices .unix false (y :: ys))
          R.length ≠ nulChar ∧
        isSepAt .unix (R ++ renderSlices .unix false (y :: ys))
          R.length = false :=
      hmid R.length le_rfl (by omega)
    unfold getFirstSegmentWithoutRoot
    dsimp only
    rw [if_neg hclean0.1]
    rw [firstSegScanGo_nosep .unix _ _ R.length hclean0.2]
    dsimp only
    rw [hstop]
    have hseg : (⟨R.length, R.length, R.length + y.length,
        R.length + y.length - R.length⟩ : Seg) =
        ⟨R.length, R.length, R.length + y.length, y.length⟩ := by
      simp only [Seg.mk.injEq, true_and]
      omega
    rw [hseg]
    rw [renderSegs]
    rw [segsNextGo_render .unix _ R.length _ ys R.length y.length hys hbd
      hdropnext le_rfl]

/-- The slices of the parsed segments of a rendered Unix string are the
rendered slices. -/
theorem segsOf_render_unix_slices (R : List Char) (xs : List (List Char))
    (hR : R = [] ∨ R = [sepChar .unix]) (hgood : GoodSlices .unix xs) :
    (segsOf .unix (R ++ renderSlices .unix false xs)).map
      (segSlice (R ++ renderSlices .unix false xs)) = xs := by
  rw [segsOf_render_unix R xs hR hgood]
  rcases xs with _ | ⟨y, ys⟩
  · rfl
  · obtain ⟨hy1, hy2⟩ := hgood y (by simp)
    have hdropR : (R ++ renderSlices .unix false (y :: ys)).drop R.length =
        y ++ renderSlices .unix true ys := by
      rw [List.drop_left]
      simp [renderSlices]
    rw [renderSegs]
    rw [List.map_cons]
    have hsl : segSlice (R ++ renderSlices .unix false (y :: ys))
        ⟨R.length, R.length, R.length + y.length, y.length⟩ = y := by
      unfold segSlice
      dsimp only
      rw [hdropR, List.take_left]
    rw [hsl]
    have h2 : (R ++ renderSlices .unix false (y :: ys)).drop
        (R.length + y.length) = renderSlices .unix true ys := by
      have h1 : (R ++ renderSlices .unix false (y :: ys)).drop
          (R.length + y.length) =
          ((R ++ renderSlices .unix false (y :: ys)).drop
            R.length).drop y.length := by
        rw [List.drop_drop]
      rw [h1, hdropR, List.drop_left]
    rw [renderSegs_slices .unix _ R.length ys (R.length + y.length) h2]

/-- A rendered string over good slices is NUL-free. -/
theorem render_nulFree (st : Style) (R : List Char) (xs : List (List Char))
    (hR : R = [] ∨ R = [sepChar st]) (hgood : GoodSlices st xs) :
    NulFree (R ++ renderSlices st false xs) := by
  have hrender : ∀ (ho : Bool) (ys : List (List Char)), GoodSlices st ys →
      ∀ c ∈ renderSlices st ho ys, c ≠ nulChar := by
    intro ho ys
    induction ys generalizing ho with
    | nil => intro _ c hc; cases hc
    | cons y ys ih =>
      intro hg c hc
      simp only [renderSlices, List.mem_append] at hc
      rcases hc with (hc | hc) | hc
      · rcases ho with _ | _
        · cases hc
        · simp at hc
          rw [hc]
          exact (sepChar_props st).2
      · exact ((hg y (by simp)).2 c hc).2
      · exact ih true (fun u hu => hg u (by simp [hu])) c hc
  intro c hc
  rcases List.mem_append.mp hc with h | h
  · rcases hR with rfl | rfl
    · cases h
    · simp at h
      rw [h]
      exact (sepChar_props st).2
  · exact hrender false xs hgood c h

/-- The Unix root length never exceeds the string length. -/
theorem getRootUnix_le (p : Path) : getRoot .unix p ≤ p.length := by
  show getRootUnix p ≤ p.length
  unfold getRootUnix
  by_cases h : isSepAt .unix p 0 = true
  · rw [if_pos h]
    rcases p with _ | ⟨c, p⟩
    · exfalso
      revert h
      decide
    · simp
  · rw [if_neg h]
    omega

/-- Prepending separator-free text preserves the no-double-separator
invariant. -/
theorem noConsec_sepfree_append (st : Style) :
    ∀ (x l : List Char), (∀ c ∈ x, isSepChar st c = false) →
      noConsecutiveSeps st l = true →
      noConsecutiveSeps st (x ++ l) = true := by
  intro x
  induction x with
  | nil =>
    intro l _ hl
    simpa using hl
  | cons a x ih =>
    intro l hx hl
    have ha : isSepChar st a = false := hx a (by simp)
    rcases x with _ | ⟨a2, x'⟩
    · rcases l with _ | ⟨b, l'⟩
      · rfl
      · show noConsecutiveSeps st (a :: b :: l') = true
        rw [noConsecutiveSeps]
        simp [ha, hl]
    · show noConsecutiveSeps st (a :: a2 :: (x' ++ l)) = true
      rw [noConsecutiveSeps]
      simp only [ha, Bool.false_and, Bool.not_false, Bool.true_and]
      exact ih l (fun c hc => hx c (by simp [hc])) hl

/-- A separator before a non-separator head keeps the invariant. -/
theorem noConsec_sep_cons (st : Style) (l : List Char)
    (hl : noConsecutiveSeps st l = true)
    (hhead : l = [] ∨ ∃ b l', l = b :: l' ∧ isSepChar st b = false) :
    noConsecutiveSeps st (sepChar st :: l) = true := by
  rcases hhead with rfl | ⟨b, l', rfl, hb⟩
  · rfl
  · rw [noConsecutiveSeps]
    simp [hb, hl]

/-- A rendered string over good slices has no consecutive separators, and
starts with a non-separator when rendered without a leading separator. -/
theorem noConsec_render (st : Style) :
    ∀ (xs : List (List Char)), GoodSlices st xs →
      noConsecutiveSeps st (renderSlices st true xs) = true ∧
      noConsecutiveSeps st (renderSlices st false xs) = true ∧
      (renderSlices st false xs = [] ∨
        ∃ b l', renderSlices st false xs = b :: l' ∧
          isSepChar st b = false) := by
  intro xs
  induction xs with
  | nil => exact fun _ => ⟨rfl, rfl, Or.inl rfl⟩
  | cons y ys ih =>
    intro hg
    obtain ⟨hy1, hy2⟩ := hg y (by simp)
    obtain ⟨ih1, ih2, ih3⟩ := ih (fun u hu => hg u (by simp [hu]))
    have hfalse : renderSlices st false (y :: ys) =
        y ++ renderSlices st true ys := by simp [renderSlices]
    have htrue : renderSlices st true (y :: ys) =
        sepChar st :: (y ++ renderSlices st true ys) := by
      simp [renderSlices]
    have hcat : noConsecutiveSeps st (y ++ renderSlices st true ys) = true :=
      noConsec_sepfree_append st y _ (fun c hc => (hy2 c hc).1) ih1
    refine ⟨?_, ?_, ?_⟩
    · rw [htrue]
      apply noConsec_sep_cons st _ hcat
      rcases y with _ | ⟨c0, y'⟩
      · exact absurd rfl hy1
      · exact Or.inr ⟨c0, _, rfl, (hy2 c0 (by simp)).1⟩
    · rw [hfalse]
      exact hcat
    · rw [hfalse]
      rcases y with _ | ⟨c0, y'⟩
      · exact absurd rfl hy1
      · exact Or.inr ⟨c0, _, rfl, (hy2 c0 (by simp)).1⟩

/-- In an absolute joined path every surviving segment is Normal. -/
theorem survivorsFrom_absolute_normal (p : Path) :
    ∀ (L : List Seg) (preT : List SegType) (s : Seg),
      s ∈ survivorsFrom p true preT L → getSegmentType p s = .normal := by
  intro L
  induction L with
  | nil => intro preT s h; cases h
  | cons t L ih =>
    intro preT s h
    rw [survivorsFrom] at h
    rcases htype : getSegmentType p t with _ | _ | _
    all_goals rw [htype] at h
    · split at h
      · exact ih _ s h
      · rcases List.mem_cons.mp h with h | h
        · rw [h, htype]
        · exact ih _ s h
    · rw [if_pos rfl] at h
      exact ih _ s h
    · rw [if_pos (by simp)] at h
      exact ih _ s h

/-- A list of Normal types trivially satisfies the Back-then-Normal
pattern. -/
theorem backsThenNormalsB_of_all_normal (ts : List SegType)
    (h : ∀ t ∈ ts, t = .normal) : backsThenNormalsB ts = true := by
  cases ts with
  | nil => rfl
  | cons t ts =>
    rw [h t (by simp)]
    simp only [backsThenNormalsB]
    exact List.all_eq_true.mpr fun u hu => by simp [h u (by simp [hu])]

/-- Every segment the iterator enumerates over a NUL-free path is
valid. -/
theorem segsOf_valid (st : Style) (O : Path) (hnf : NulFree O) :
    ∀ s ∈ segsOf st O, ValidSeg st O s := by
  intro s hs
  unfold segsOf at hs
  rcases hf : getFirstSegment st O with ⟨bf, s0⟩
  rw [hf] at hs
  cases bf
  · cases hs
  · dsimp only at hs
    have hv0 := (first_valid st O hnf s0 hf).1
    rcases List.mem_cons.mp hs with h | h
    · exact h ▸ hv0
    · exact segsNextGo_valid st O hnf _ s0 hv0 s h

/-- The Unix root is one exactly on a leading separator, else zero. -/
theorem getRoot_unix_cases (p : Path) :
    (getRoot .unix p = 1 ∧ isSepAt .unix p 0 = true) ∨
    (getRoot .unix p = 0 ∧ isSepAt .unix p 0 = false) := by
  rcases h : isSepAt .unix p 0 with _ | _
  · right
    refine ⟨?_, rfl⟩
    show getRootUnix p = 0
    unfold getRootUnix
    rw [h]
    simp
  · left
    refine ⟨?_, rfl⟩
    show getRootUnix p = 1
    unfold getRootUnix
    rw [h]
    simp

/-- A Unix path with a leading separator starts with the canonical
separator character. -/
theorem take_one_of_sep (p : Path) (h : isSepAt .unix p 0 = true) :
    p.take 1 = [sepChar .unix] ∧ 1 ≤ p.length := by
  rcases p with _ | ⟨c, p'⟩
  · exfalso
    revert h
    decide
  · have hc : c = sepChar .unix := by
      unfold isSepAt at h
      have h0 : charAt (c :: p') 0 = c := rfl
      rw [h0] at h
      unfold isSepChar separatorList at h
      simp at h
      rw [h]
      rfl
    constructor
    · rw [hc]
      rfl
    · simp

/-- Unix absoluteness is exactly a leading separator. -/
theorem isAbsolute_unix_iff (p : Path) :
    isAbsolute .unix p = isSepAt .unix p 0 := by
  unfold isAbsolute isRootAbsolute
  rcases getRoot_unix_cases p with ⟨hr, hs⟩ | ⟨hr, hs⟩
  · rw [hr]
    simp [hs]
  · rw [hr]
    simp [hs]

/-- Types of the enumerated segments are read off their slices. -/
theorem segsOf_types_slices (st : Style) (O : Path) (hnf : NulFree O) :
    (segsOf st O).map (getSegmentType O) =
      ((segsOf st O).map (segSlice O)).map typeOfText := by
  rw [List.map_map]
  apply List.map_congr_left
  intro s hs
  obtain ⟨hv1, hv2, hv3, hv4, -, -, -⟩ := segsOf_valid st O hnf s hs
  exact getSegmentType_eq_typeOfText O s hnf (by omega) (by omega)

/-- The survivors of any elision pass are Back-then-Normal. -/
theorem survivorsFrom_pattern_any (p : Path) (abs : Bool) (L : List Seg) :
    backsThenNormalsB
      ((survivorsFrom p abs [] L).map (getSegmentType p)) = true := by
  cases abs
  · exact survivorsFrom_pattern p L []
  · exact backsThenNormalsB_of_all_normal _ (fun t ht => by
      obtain ⟨s, hs, rfl⟩ := List.mem_map.mp ht
      exact survivorsFrom_absolute_normal p L [] s hs)

/-- Normal forms are NUL-free. -/
theorem normalForm_nulFree (O : Path) (h : NormalForm O) : NulFree O := by
  rcases h with rfl | rfl | rfl | ⟨R, xs, hR, hgood, -, rfl, -, -⟩
  · intro c hc
    cases hc
  · intro c hc
    simp at hc
    rw [hc]
    exact (sepChar_props .unix).2
  · intro c hc
    simp at hc
    rw [hc]
    decide
  · exact render_nulFree .unix R xs hR hgood

/-- The spec-level `normalize` output of a NUL-free Unix path is in
normal form; on an absolute path it is a bare root or a root followed by
Normal slices. -/
theorem normalSpec_normalForm (p : Path) (hnf : NulFree p) :
    NormalForm (normalSpec .unix p) ∧
    (isAbsolute .unix p = true →
      normalSpec .unix p = [sepChar .unix] ∨
      ∃ xs : List (List Char), GoodSlices .unix xs ∧ xs ≠ [] ∧
        normalSpec .unix p = sepChar .unix :: renderSlices .unix false xs ∧
        ∀ x ∈ xs, typeOfText x = .normal) := by
  unfold normalSpec
  rcases hf : getFirstSegment .unix p with ⟨bf, s0⟩
  cases bf
  · dsimp only
    rcases getRoot_unix_cases p with ⟨hr, hsep⟩ | ⟨hr, hsep⟩
    · obtain ⟨htake, -⟩ := take_one_of_sep p hsep
      rw [hr, htake]
      exact ⟨Or.inr (Or.inl rfl), fun _ => Or.inl rfl⟩
    · rw [hr]
      refine ⟨Or.inl rfl, fun habs => ?_⟩
      rw [isAbsolute_unix_iff, hsep] at habs
      cases habs
  · dsimp only
    have hL : segsOf .unix p =
        s0 :: segsNextGo .unix p (p.length - s0.b) s0 := by
      unfold segsOf
      rw [hf]
    have hvalid : ∀ s ∈ survivorsFrom p
        (isRootAbsolute .unix p (getRoot .unix p)) []
        (s0 :: segsNextGo .unix p (p.length - s0.b) s0),
        ValidSeg .unix p s := by
      intro s hs
      apply segsOf_valid .unix p hnf
      rw [hL]
      exact survivorsFrom_subset p _ _ _ s hs
    have hgood : GoodSlices .unix ((survivorsFrom p
        (isRootAbsolute .unix p (getRoot .unix p)) []
        (s0 :: segsNextGo .unix p (p.length - s0.b) s0)).map
          (segSlice p)) := by
      intro x hx
      obtain ⟨s, hs, rfl⟩ := List.mem_map.mp hx
      exact segSlice_good .unix p hnf s (hvalid s hs)
    have htypes : ∀ s ∈ survivorsFrom p
        (isRootAbsolute .unix p (getRoot .unix p)) []
        (s0 :: segsNextGo .unix p (p.length - s0.b) s0),
        getSegmentType p s = typeOfText (segSlice p s) := by
      intro s hs
      obtain ⟨hv1, hv2, hv3, hv4, -, -, -⟩ := hvalid s hs
      exact getSegmentType_eq_typeOfText p s hnf (by omega) (by omega)
    have hmapty : ((survivorsFrom p
        (isRootAbsolute .unix p (getRoot .unix p)) []
        (s0 :: segsNextGo .unix p (p.length - s0.b) s0)).map
          (segSlice p)).map typeOfText =
        (survivorsFrom p (isRootAbsolute .unix p (getRoot .unix p)) []
          (s0 :: segsNextGo .unix p (p.length - s0.b) s0)).map
            (getSegmentType p) := by
      rw [List.map_map]
      apply List.map_congr_left
      intro s hs
      exact (htypes s hs).symm
    by_cases hcond : (survivorsFrom p
        (isRootAbsolute .unix p (getRoot .unix p)) []
        (s0 :: segsNextGo .unix p (p.length - s0.b) s0)).isEmpty ∧
        getRoot .unix p = 0
    · rw [if_pos hcond]
      refine ⟨Or.inr (Or.inr (Or.inl rfl)), fun habs => ?_⟩
      exfalso
      rcases getRoot_unix_cases p with ⟨hr, hsep⟩ | ⟨hr, hsep⟩
      · have h0 := hcond.2
        omega
      · rw [isAbsolute_unix_iff, hsep] at habs
        cases habs
    · rw [if_neg hcond]
      by_cases hsve : (survivorsFrom p
          (isRootAbsolute .unix p (getRoot .unix p)) []
          (s0 :: segsNextGo .unix p (p.length - s0.b) s0)).isEmpty
      · have hr1 : getRoot .unix p = 1 ∧ isSepAt .unix p 0 = true := by
          rcases getRoot_unix_cases p with h | ⟨hr, hsep⟩
          · exact h
          · exact absurd ⟨hsve, hr⟩ hcond
        obtain ⟨htake, -⟩ := take_one_of_sep p hr1.2
        have hsv0 : survivorsFrom p
            (isRootAbsolute .unix p (getRoot .unix p)) []
            (s0 :: segsNextGo .unix p (p.length - s0.b) s0) = [] :=
          List.isEmpty_iff.mp hsve
        rw [hsv0, hr1.1, htake]
        have hout : (([sepChar .unix] : List Char) ++
            renderSlices .unix false (([] : List Seg).map (segSlice p))) =
            [sepChar .unix] := by
          simp [renderSlices]
        rw [hout]
        exact ⟨Or.inr (Or.inl rfl), fun _ => Or.inl rfl⟩
      · have hxne : (survivorsFrom p
            (isRootAbsolute .unix p (getRoot .unix p)) []
            (s0 :: segsNextGo .unix p (p.length - s0.b) s0)).map
              (segSlice p) ≠ [] := by
          intro hcon
          apply hsve
          rw [List.isEmpty_iff]
          exact List.map_eq_nil_iff.mp hcon
        constructor
        · right
          right
          right
          refine ⟨p.take (getRoot .unix p), _, ?_, hgood, hxne, rfl, ?_, ?_⟩
          · rcases getRoot_unix_cases p with ⟨hr, hsep⟩ | ⟨hr, hsep⟩
            · right
              rw [hr]
              exact (take_one_of_sep p hsep).1
            · left
              rw [hr]
              rfl
          · rw [hmapty]
            exact survivorsFrom_pattern_any p _ _
          · intro hRne x hx
            have hr1 : getRoot .unix p = 1 ∧ isSepAt .unix p 0 = true := by
              rcases getRoot_unix_cases p with h | ⟨hr, hsep⟩
              · exact h
              · exfalso
                apply hRne
                rw [hr]
                rfl
            have habs : isRootAbsolute .unix p (getRoot .unix p) = true := by
              unfold isRootAbsolute
              rw [hr1.1]
              simpa using hr1.2
            obtain ⟨s, hs, rfl⟩ := List.mem_map.mp hx
            rw [← htypes s hs]
            rw [habs] at hs
            exact survivorsFrom_absolute_normal p _ [] s hs
        · intro habs
          right
          have habs' : isRootAbsolute .unix p (getRoot .unix p) = true :=
            habs
          have hr1 : getRoot .unix p = 1 ∧ isSepAt .unix p 0 = true := by
            rcases getRoot_unix_cases p with h | ⟨hr, hsep⟩
            · exact h
            · exfalso
              rw [isAbsolute_unix_iff, hsep] at habs
              cases habs
          obtain ⟨htake, -⟩ := take_one_of_sep p hr1.2
          refine ⟨_, hgood, hxne, ?_, ?_⟩
          · rw [hr1.1, htake]
            rfl
          · intro x hx
            obtain ⟨s, hs, rfl⟩ := List.mem_map.mp hx
            rw [← htypes s hs]
            rw [habs'] at hs
            exact survivorsFrom_absolute_normal p _ [] s hs

/-- A normal form is a fixed point of the spec-level `normalize`. -/
theorem normalSpec_fixed (O : Path) (h : NormalForm O) :
    normalSpec .unix O = O := by
  rcases h with rfl | rfl | rfl | ⟨R, xs, hR, hgood, hne, rfl, hpat, habs⟩
  · decide
  · decide
  · decide
  · have hnfO : NulFree (R ++ renderSlices .unix false xs) :=
      render_nulFree .unix R xs hR hgood
    have hroot := getRoot_unix_render R xs hR hgood
    have hslices := segsOf_render_unix_slices R xs hR hgood
    rcases xs with _ | ⟨y, ys⟩
    · exact absurd rfl hne
    have hsegs := segsOf_render_unix R (y :: ys) hR hgood
    unfold segsOf at hsegs
    rcases hf : getFirstSegment .unix
        (R ++ renderSlices .unix false (y :: ys)) with ⟨bf, s0⟩
    rw [hf] at hsegs
    cases bf
    · rw [renderSegs] at hsegs
      cases hsegs
    dsimp only at hsegs
    have hLQ : segsOf .unix (R ++ renderSlices .unix false (y :: ys)) =
        s0 :: segsNextGo .unix (R ++ renderSlices .unix false (y :: ys))
          ((R ++ renderSlices .unix false (y :: ys)).length - s0.b) s0 := by
      unfold segsOf
      rw [hf]
    rw [hLQ] at hslices
    have htypeseq : (s0 :: segsNextGo .unix
          (R ++ renderSlices .unix false (y :: ys))
          ((R ++ renderSlices .unix false (y :: ys)).length - s0.b) s0).map
        (getSegmentType (R ++ renderSlices .unix false (y :: ys))) =
        (y :: ys).map typeOfText := by
      have h1 := segsOf_types_slices .unix
        (R ++ renderSlices .unix false (y :: ys)) hnfO
      rw [hLQ] at h1
      rw [h1, hslices]
    unfold normalSpec
    rw [hf]
    dsimp only
    have hvalid : ∀ s ∈ s0 :: segsNextGo .unix
        (R ++ renderSlices .unix false (y :: ys))
        ((R ++ renderSlices .unix false (y :: ys)).length - s0.b) s0,
        ValidSeg .unix (R ++ renderSlices .unix false (y :: ys)) s := by
      intro s hs
      apply segsOf_valid .unix _ hnfO
      rw [hLQ]
      exact hs
    rcases hR with rfl | rfl
    · -- relative: root 0
      simp only [List.nil_append] at hroot hslices htypeseq hvalid ⊢
      have habs0 : isRootAbsolute .unix
          (renderSlices .unix false (y :: ys))
          (getRoot .unix (renderSlices .unix false (y :: ys))) = false := by
        unfold isRootAbsolute
        rw [hroot]
        simp
      rw [habs0]
      have hid : survivorsFrom (renderSlices .unix false (y :: ys)) false []
          (s0 :: segsNextGo .unix (renderSlices .unix false (y :: ys))
            ((renderSlices .unix false (y :: ys)).length - s0.b) s0) =
          s0 :: segsNextGo .unix (renderSlices .unix false (y :: ys))
            ((renderSlices .unix false (y :: ys)).length - s0.b) s0 := by
        have := survivorsFrom_pattern_id
          (renderSlices .unix false (y :: ys))
          (s0 :: segsNextGo .unix (renderSlices .unix false (y :: ys))
            ((renderSlices .unix false (y :: ys)).length - s0.b) s0) 0
          (by rw [htypeseq]; exact hpat)
        simpa using this
      rw [hid]
      rw [if_neg (by intro hcon; exact absurd hcon.1 (by simp))]
      rw [hroot, hslices]
      rfl
    · -- absolute: root 1
      have habs1 : isRootAbsolute .unix
          ([sepChar .unix] ++ renderSlices .unix false (y :: ys))
          (getRoot .unix ([sepChar .unix] ++
            renderSlices .unix false (y :: ys))) = true := by
        unfold isRootAbsolute
        rw [hroot]
        have hc0 : isSepAt .unix ([sepChar .unix] ++
            renderSlices .unix false (y :: ys)) 0 = true := by
          unfold isSepAt
          have : charAt ([sepChar .unix] ++
              renderSlices .unix false (y :: ys)) 0 = sepChar .unix := rfl
          rw [this]
          exact (sepChar_props .unix).1
        rw [if_neg (by simp)]
        exact hc0
      rw [habs1]
      have hall : ∀ s ∈ s0 :: segsNextGo .unix
          ([sepChar .unix] ++ renderSlices .unix false (y :: ys))
          (([sepChar .unix] ++
            renderSlices .unix false (y :: ys)).length - s0.b) s0,
          getSegmentType ([sepChar .unix] ++
            renderSlices .unix false (y :: ys)) s = .normal := by
        intro s hs
        obtain ⟨hv1, hv2, hv3, hv4, -, -, -⟩ := hvalid s hs
        rw [getSegmentType_eq_typeOfText _ s hnfO (by omega) (by omega)]
        have hmem := List.mem_map_of_mem
          (segSlice ([sepChar .unix] ++
            renderSlices .unix false (y :: ys))) hs
        rw [hslices] at hmem
        exact habs (by simp) _ hmem
      rw [survivorsFrom_all_normal_id _ true _ [] hall]
      rw [if_neg (by intro hcon; exact absurd hcon.1 (by simp))]
      rw [hroot, hslices]
      rfl

/-- C2, amended: `normalize` is idempotent for the Unix path style — on a
NUL-free input, normalizing the output of `normalize` reproduces the same
output string, and the returned length of the second pass equals that of
the first, whatever the buffers.  (Under the Windows style idempotence
fails; see the C2 counterexample.) -/
theorem claim2_amended_unix_idempotent (p : Path) (hnf : NulFree p) :
    normalizeOut .unix (normalizeOut .unix p) = normalizeOut .unix p ∧
    ∀ buf buf2 : Buf,
      (normalize .unix (normalizeOut .unix p) buf2).2 =
        (normalize .unix p buf).2 := by
  have h1 := normalizeOut_eq .unix p hnf (getRootUnix_le p)
  obtain ⟨hNF, -⟩ := normalSpec_normalForm p hnf
  have hOnf : NulFree (normalSpec .unix p) := normalForm_nulFree _ hNF
  have hfix := normalSpec_fixed _ hNF
  constructor
  · rw [h1]
    rw [normalizeOut_eq .unix _ hOnf (getRootUnix_le _)]
    exact hfix
  · intro buf buf2
    rw [normalize_len .unix p hnf (getRootUnix_le p) buf]
    rw [h1]
    rw [normalize_len .unix _ hOnf (getRootUnix_le _) buf2]
    rw [hfix]

/-- Witness for the amended C2 at the Unix path `"a/./b/../c"`. -/
theorem claim2_amended_witness :
    NulFree "a/./b/../c".data ∧
    (normalizeOut .unix (normalizeOut .unix "a/./b/../c".data) =
        normalizeOut .unix "a/./b/../c".data ∧
      ∀ buf buf2 : Buf,
        (normalize .unix (normalizeOut .unix "a/./b/../c".data) buf2).2 =
          (normalize .unix "a/./b/../c".data buf).2) :=
  ⟨by decide, claim2_amended_unix_idempotent "a/./b/../c".data (by decide)⟩

/-- C10, amended to the Unix style (the Windows counterexample shows the
original statement fails inside UNC roots): the normalized form of an
absolute NUL-free Unix path consists of Normal segments only — no `"."`
and no `".."` survives — and contains no two consecutive separators. -/
theorem claim10_amended_unix (p : Path) (hnf : NulFree p)
    (habs : isAbsolute .unix p = true) :
    (∀ s ∈ segsOf .unix (normalizeOut .unix p),
      getSegmentType (normalizeOut .unix p) s = .normal) ∧
    noConsecutiveSeps .unix (normalizeOut .unix p) = true := by
  rw [normalizeOut_eq .unix p hnf (getRootUnix_le p)]
  obtain ⟨-, habsForm⟩ := normalSpec_normalForm p hnf
  rcases habsForm habs with hO | ⟨xs, hgood, hne, hO, hall⟩
  · rw [hO]
    constructor
    · intro s hs
      rw [show segsOf .unix [sepChar .unix] = [] from by decide] at hs
      cases hs
    · decide
  · rw [hO]
    constructor
    · intro s hs
      have hcons : (sepChar .unix :: renderSlices .unix false xs) =
          [sepChar .unix] ++ renderSlices .unix false xs := rfl
      rw [hcons] at hs ⊢
      have hnfO : NulFree ([sepChar .unix] ++
          renderSlices .unix false xs) :=
        render_nulFree .unix _ xs (Or.inr rfl) hgood
      have hslices := segsOf_render_unix_slices [sepChar .unix] xs
        (Or.inr rfl) hgood
      obtain ⟨hv1, hv2, hv3, hv4, -, -, -⟩ :=
        segsOf_valid .unix _ hnfO s hs
      rw [getSegmentType_eq_typeOfText _ s hnfO (by omega) (by omega)]
      have hmem := List.mem_map_of_mem
        (segSlice ([sepChar .unix] ++ renderSlices .unix false xs)) hs
      rw [hslices] at hmem
      exact hall _ hmem
    · obtain ⟨-, h2, h3⟩ := noConsec_render .unix xs hgood
      exact noConsec_sep_cons .unix _ h2 h3

/-- Witness for the amended C10 at the absolute Unix path
`"/a/./b/../c"`. -/
theorem claim10_amended_witness :
    NulFree "/a/./b/../c".data ∧
    isAbsolute .unix "/a/./b/../c".data = true ∧
    ((∀ s ∈ segsOf .unix (normalizeOut .unix "/a/./b/../c".data),
        getSegmentType (normalizeOut .unix "/a/./b/../c".data) s =
          .normal) ∧
      noConsecutiveSeps .unix (normalizeOut .unix "/a/./b/../c".data) =
        true) :=
  ⟨by decide, by decide,
    claim10_amended_unix "/a/./b/../c".data (by decide) (by decide)⟩

end Cwalk
